import Mathlib

/-!
# numeric_quicksort

A shallow embedding of `numeric_quicksort.h` (Morwenn/numeric_quicksort) and a
verification development about it.

Modelling conventions.

* A range `[first, last)` is a `List Int` holding the mathematical values of its
  elements; an in-place algorithm returns the new content of the range.
* A `long double` is the x87 extended format: a 64-bit significand, results rounded to
  nearest with ties to even (`ld_round`), the square root correctly rounded (`ld_sqrt`).
  Its values are rationals (`XReal`); the exponent range is not modelled, no quantity
  of the program comes near its limits. Integers of 64 bits convert exactly.
* `std::intmax_t` is the 64-bit signed integer; storing a value into it is
  conversion modulo `2^64` (`wrap64`).
* `std::partition` is library code: it is described by its contract (`Partitioner`).
* Recursion is bounded by a fuel argument; `none` stands for "no result".
-/

namespace NumericQuicksort

/-! ## `long double` values and arithmetic -/

/-- The value of a `long double`, a rational number. -/
structure XReal where
  val : ℚ
  deriving DecidableEq

namespace XReal

/-- A `long double` of given value. -/
def ofRat (q : ℚ) : XReal := ⟨q⟩

/-- Conversion of an integer element (`static_cast<long double>`), exact for integers of
64 bits. -/
def ofInt (x : Int) : XReal := ⟨(x : ℚ)⟩

/-- Comparison `a < b` of two `long double` values. -/
def lt (a b : XReal) : Bool := decide (a.val < b.val)

end XReal

instance : Coe Int XReal := ⟨XReal.ofInt⟩

/-- The comparator `std::less<>`: `a < b`. -/
def less (a b : XReal) : Bool := XReal.lt a b

/-- The descending comparator `std::greater<>`: `a > b`. -/
def greater (a b : XReal) : Bool := XReal.lt b a

/-- Number of binary digits of `n` (`fuel` bounds the number of halvings). -/
def bit_length : Nat → Nat → Nat
  | 0, _ => 0
  | fuel + 1, n => if n = 0 then 0 else bit_length fuel (n / 2) + 1

/-- Nearest integer, ties to the even one. -/
def round_half_even (s : ℚ) : ℤ :=
  if s - (⌊s⌋ : ℚ) < 1 / 2 then ⌊s⌋
  else if 1 / 2 < s - (⌊s⌋ : ℚ) then ⌊s⌋ + 1
  else if ⌊s⌋ % 2 = 0 then ⌊s⌋ else ⌊s⌋ + 1

/-- The exponent `e` of the unit in the last place of a non-zero `q` in a 64-bit
significand: `2^(e+63) ≤ |q| < 2^(e+64)`. -/
def ld_exponent (q : ℚ) : ℤ :=
  (if (2 : ℚ) ^ ((bit_length q.num.natAbs q.num.natAbs : ℤ) - (bit_length q.den q.den : ℤ)) ≤ |q|
    then (bit_length q.num.natAbs q.num.natAbs : ℤ) - (bit_length q.den q.den : ℤ)
    else (bit_length q.num.natAbs q.num.natAbs : ℤ) - (bit_length q.den q.den : ℤ) - 1) - 63

/-- Rounding of an exact result to `long double`: the nearest number with a 64-bit
significand, ties to even. -/
def ld_round (q : ℚ) : ℚ :=
  if q = 0 then 0 else (round_half_even (q / 2 ^ ld_exponent q) : ℚ) * 2 ^ ld_exponent q

/-- Bit by bit search of the integer square root. -/
def isqrt.loop (n : Nat) : Nat → Nat → Nat
  | 0, r => r
  | i + 1, r =>
    if (r + 2 ^ i) * (r + 2 ^ i) ≤ n then isqrt.loop n i (r + 2 ^ i) else isqrt.loop n i r

/-- Integer square root: the largest `r` with `r * r ≤ n`. -/
def isqrt (n : Nat) : Nat := isqrt.loop n (bit_length n n / 2 + 1) 0

/-- The function `std::sqrt` on `long double`: the square root rounded to the nearest
number with a 64-bit significand. The argument is scaled by a power of 4 into
`[2^126, 2^128)`, so that its root lies in `[2^63, 2^64)`. -/
def ld_sqrt (q : ℚ) : ℚ :=
  if q ≤ 0 then 0
  else
    let e : ℤ := (ld_exponent q + 63) / 2 - 63
    let x : ℚ := q / 4 ^ e
    let m : ℕ := isqrt ⌊x⌋.natAbs
    (if 4 * x < (2 * (m : ℚ) + 1) ^ 2 then (m : ℚ)
     else if (2 * (m : ℚ) + 1) ^ 2 < 4 * x then (m : ℚ) + 1
     else if m % 2 = 0 then (m : ℚ) else (m : ℚ) + 1) * 2 ^ e

/-- The numbers a `long double` can hold: an integer of less than 64 bits times a power
of two. -/
def Representable (x : ℚ) : Prop := ∃ m k : ℤ, |m| < 2 ^ 64 ∧ x = (m : ℚ) * 2 ^ k

/-! ## Machine integers -/

def INTMAX_MIN : Int := -(2 ^ 63)

def INTMAX_MAX : Int := 2 ^ 63 - 1

/-- Conversion to `std::intmax_t`: reduction modulo `2^64` into `[-2^63, 2^63)`. -/
def wrap64 (x : Int) : Int := (x + 2 ^ 63) % 2 ^ 64 - 2 ^ 63

/-- The builtin `__builtin_add_overflow(a, b, &tmp)` for a `std::intmax_t` result:
the sum is taken in infinite precision; the flag tells whether it does not fit,
and `tmp` receives the wrapped sum. -/
def add_overflow (a b : Int) : Bool × Int :=
  (decide (a + b < INTMAX_MIN ∨ INTMAX_MAX < a + b), wrap64 (a + b))

/-- A range of signed 64-bit integers. -/
def InRange (l : List Int) : Prop := ∀ x ∈ l, INTMAX_MIN ≤ x ∧ x ≤ INTMAX_MAX

instance (l : List Int) : Decidable (InRange l) := by
  unfold InRange; infer_instance

/-! ## `detail::average` -/

/-- The `while (first != last)` loop of `average` and the final flush. A flush
`res += accumulator / size` rounds the quotient, then the sum. -/
def average.loop (size : Nat) : List Int → Int → ℚ → ℚ
  | [], accumulator, res => ld_round (res + ld_round ((accumulator : ℚ) / (size : ℚ)))
  | x :: rest, accumulator, res =>
    if (add_overflow x accumulator).1 then
      average.loop size rest (wrap64 x)
        (ld_round (res + ld_round ((accumulator : ℚ) / (size : ℚ))))
    else
      average.loop size rest (accumulator + x) res

/-- The function `detail::average(first, last, size)`. -/
def average (l : List Int) (size : Nat) : ℚ :=
  if size = 0 then 0 else average.loop size l 0 0

/-- The loop of `average`, started with the given accumulator, never flushes: every
addition fits in `std::intmax_t`. -/
def average.no_flush : List Int → Int → Bool
  | [], _ => true
  | x :: rest, accumulator =>
    !(add_overflow x accumulator).1 && average.no_flush rest (accumulator + x)

/-- The magnitudes of the elements add up to at most `INTMAX_MAX`, so that no sum of
elements of the range overflows. -/
def SumFits (l : List Int) : Prop := ((l.map Int.natAbs).sum : Int) ≤ INTMAX_MAX

instance (l : List Int) : Decidable (SumFits l) := by
  unfold SumFits; infer_instance

/-! ## `detail::numeric_pivots` -/

/-- The accumulation `std_dev += (*it - avg) * (*it - avg)` over the range: the
difference, the product and the sum are each rounded. -/
def sum_sq_dev (avg : ℚ) : List Int → ℚ → ℚ
  | [], std_dev => std_dev
  | x :: rest, std_dev =>
    sum_sq_dev avg rest
      (ld_round (std_dev + ld_round (ld_round ((x : ℚ) - avg) * ld_round ((x : ℚ) - avg))))

/-- The function `detail::numeric_pivots(first, last, size)`. The two square roots, their
quotient, the difference and the sum are each rounded. The quotient
`sqrt(std_dev) / sqrt(size)` is not a number when `size` is zero, in which case there is
no result. -/
def numeric_pivots (l : List Int) (size : Nat) : Option (XReal × XReal) :=
  let avg := average l size
  let std_dev := sum_sq_dev avg l 0
  if size = 0 then none
  else
    let std_dev := ld_round (ld_sqrt std_dev / ld_sqrt (size : ℚ))
    some (⟨ld_round (avg - std_dev)⟩, ⟨ld_round (avg + std_dev)⟩)

/-- The value of `std_dev` after line 75 of `numeric_pivots`. -/
def std_deviation (l : List Int) (size : Nat) : ℚ :=
  ld_round (ld_sqrt (sum_sq_dev (average l size) l 0) / ld_sqrt (size : ℚ))

/-! ## `detail::insertion_sort` -/

/-- The `do ... while (--sift != first && compare(tmp, *--sift_1))` loop, run on the
elements before `sift` from right to left (`before` is that prefix reversed):
elements that `tmp` compares less than move one place right, then `tmp` is stored. -/
def insertion_sort.sift {α : Type} (compare : α → α → Bool) (tmp : α) : List α → List α
  | [] => [tmp]
  | p :: before => if compare tmp p then p :: insertion_sort.sift compare tmp before
                   else tmp :: p :: before

/-- One iteration of the `for` loop for the element `x` at `cur`; `before` is the
reversed content of `[first, cur)`. -/
def insertion_sort.step {α : Type} (compare : α → α → Bool) (x : α) : List α → List α
  | [] => [x]
  | p :: before =>
    if compare x p then p :: insertion_sort.sift compare x before
    else x :: p :: before

/-- The `for (cur = next(first); cur != last; ++cur)` loop. -/
def insertion_sort.loop {α : Type} (compare : α → α → Bool) : List α → List α → List α
  | before, [] => before.reverse
  | before, x :: rest => insertion_sort.loop compare (insertion_sort.step compare x before) rest

/-- The function `detail::insertion_sort(first, last, compare)`. -/
def insertion_sort {α : Type} (compare : α → α → Bool) : List α → List α
  | [] => []
  | x :: rest => insertion_sort.loop compare [x] rest

/-! ## `std::partition` -/

/-- The contract of `std::partition(first, last, pred)`: the range is permuted so
that the elements satisfying `pred` come first; `run` returns the two parts
`[first, middle)` and `[middle, last)`. -/
structure Partitioner where
  run : (Int → Bool) → List Int → List Int × List Int
  perm : ∀ pred l, ((run pred l).1 ++ (run pred l).2).Perm l
  fst_true : ∀ pred l, ∀ x ∈ (run pred l).1, pred x = true
  snd_false : ∀ pred l, ∀ x ∈ (run pred l).2, pred x = false

/-- A partition that keeps the relative order inside both parts. -/
def filterPartition : Partitioner where
  run pred l := (l.filter pred, l.filter (fun x => !pred x))
  perm pred l := by
    simpa using List.filter_append_perm pred l
  fst_true pred l x hx := by
    simpa using (List.mem_filter.1 hx).2
  snd_false pred l x hx := by
    simpa using (List.mem_filter.1 hx).2

/-! ## `detail::numeric_quicksort_impl` -/

/-- The five consecutive regions of a range after the four partition steps:
`[first,middle1)`, `[middle1,middle3)`, `[middle3,middle4)`, `[middle4,middle2)`,
`[middle2,last)`. -/
structure Regions where
  r0 : List Int
  r1 : List Int
  eq : List Int
  r2 : List Int
  r3 : List Int
  deriving DecidableEq

/-- The first call of `std::partition` (lines 116-119): `[first, middle1)` holds the
elements with `compare(elem, pivots.first)`, `[middle1, last)` the others. -/
def first_split (P : Partitioner) (compare : XReal → XReal → Bool)
    (pivots : XReal × XReal) (l : List Int) : List Int × List Int :=
  P.run (fun elem => compare elem pivots.1) l

/-- The second call of `std::partition` (lines 120-123), on `[middle1, last)`:
`[middle1, middle2)` holds the elements with `not compare(pivots.second, elem)`,
`[middle2, last)` the others. -/
def second_split (P : Partitioner) (compare : XReal → XReal → Bool)
    (pivots : XReal × XReal) (l : List Int) : List Int × List Int :=
  P.run (fun elem => !compare pivots.2 elem) (first_split P compare pivots l).2

/-- The refined pivot of line 126: the mean of `[middle1, middle2)`, whose size is
`std::distance(middle1, middle2)`. -/
def new_pivot (P : Partitioner) (compare : XReal → XReal → Bool)
    (pivots : XReal × XReal) (l : List Int) : ℚ :=
  average (second_split P compare pivots l).1 (second_split P compare pivots l).1.length

/-- The four calls of `std::partition` (lines 116-134) for given pivots. -/
def partition_steps (P : Partitioner) (compare : XReal → XReal → Bool)
    (pivots : XReal × XReal) (l : List Int) : Regions :=
  let s1 := first_split P compare pivots l
  let s2 := second_split P compare pivots l
  let refined := XReal.ofRat (new_pivot P compare pivots l)
  let s3 := P.run (fun elem => compare elem refined) s2.1
  let s4 := P.run (fun elem => !compare refined elem) s3.2
  ⟨s1.1, s3.1, s4.1, s4.2, s2.2⟩

/-- Lines 115-134 of `numeric_quicksort_impl`: the pivots of the whole range and the
four calls of `std::partition`. -/
def partition_ranges (P : Partitioner) (compare : XReal → XReal → Bool)
    (l : List Int) (size : Nat) : Option Regions :=
  match numeric_pivots l size with
  | none => none
  | some pivots => some (partition_steps P compare pivots l)

/-- The function `detail::numeric_quicksort_impl(first, last, size, compare)`, with a
bound `fuel` on the depth of the recursion. -/
def numeric_quicksort_impl (P : Partitioner) (compare : XReal → XReal → Bool) :
    Nat → List Int → Nat → Option (List Int)
  | fuel, l, size =>
    if size < 32 then
      some (insertion_sort (fun a b : Int => compare a b) l)
    else
      match fuel with
      | 0 => none
      | fuel + 1 =>
        match partition_ranges P compare l size with
        | none => none
        | some g =>
          let sizes0 := g.r0.length
          let sizes1 := g.r1.length
          let sizes2 := g.r2.length
          let sizes3 := g.r3.length
          match numeric_quicksort_impl P compare fuel g.r0 sizes0 with
          | none => none
          | some s0 =>
            match numeric_quicksort_impl P compare fuel g.r3 sizes3 with
            | none => none
            | some s3 =>
              if sizes1 < sizes2 then
                match numeric_quicksort_impl P compare fuel g.r1 sizes1 with
                | none => none
                | some s1 =>
                  match numeric_quicksort_impl P compare fuel g.r2 sizes2 with
                  | none => none
                  | some s2 => some (s0 ++ s1 ++ g.eq ++ s2 ++ s3)
              else
                match numeric_quicksort_impl P compare fuel g.r2 sizes2 with
                | none => none
                | some s2 =>
                  match numeric_quicksort_impl P compare fuel g.r1 sizes1 with
                  | none => none
                  | some s1 => some (s0 ++ s1 ++ g.eq ++ s2 ++ s3)

/-- The function `numeric_quicksort(first, last, compare)`. -/
def numeric_quicksort (P : Partitioner) (compare : XReal → XReal → Bool)
    (fuel : Nat) (l : List Int) : Option (List Int) :=
  numeric_quicksort_impl P compare fuel l l.length

/-- A reference sort of integers by `≤`. -/
def reference_sort (l : List Int) : List Int := l.insertionSort (· ≤ ·)

/-! ## Sample inputs -/

/-- A sample range of 34 signed 64-bit integers, extreme values included. -/
def sample34 : List Int :=
  [7, -3, 9223372036854775807, 12, 0, 5, -9223372036854775808, 44, 9223372036854775807,
   -8, 19, 2, 2, 31, -17, 6, 100, -100, 55, 23, 1, 9223372036854775806, 14, -1, 8, 77,
   -42, 3, 64, 11, -9, 27, 36, 4]

/-- A range of 32 elements: thirty-one zeros followed by one 32. -/
def descending_trap : List Int := List.replicate 31 0 ++ [32]

/-- Thirty-three copies of `5000000000000000000`. -/
def flush_sample : List Int := List.replicate 33 5000000000000000000

/-- Forty copies of the largest 64-bit integer. -/
def max_sample_40 : List Int := List.replicate 40 9223372036854775807

/-- Thirty-two copies of the largest 64-bit integer. -/
def max_sample_32 : List Int := List.replicate 32 9223372036854775807

/-- Thirty-two copies of the largest 64-bit integer followed by 0. -/
def unsorted_max_sample : List Int := List.replicate 32 9223372036854775807 ++ [0]

/-- The element 0 followed by thirty-two copies of the largest 64-bit integer. -/
def sorted_max_sample : List Int := 0 :: List.replicate 32 9223372036854775807

/-- A comparator that is a strict weak ordering: irreflexive, transitive, and with a
transitive incomparability. -/
structure StrictWeakOrder {α : Type} (compare : α → α → Bool) : Prop where
  irrefl : ∀ a, compare a a = false
  trans : ∀ a b c, compare a b = true → compare b c = true → compare a c = true
  incomp_trans : ∀ a b c, compare a b = false → compare b a = false →
    compare b c = false → compare c b = false → compare a c = false ∧ compare c a = false

/-- Two elements are equivalent under a comparator when neither compares less than the
other. -/
def equivalent {α : Type} (compare : α → α → Bool) (a b : α) : Bool :=
  !compare a b && !compare b a

/-! ## The accumulator of `detail::average` -/

/-- One iteration of the loop of `average` on the pair `(accumulator, res)`. -/
def average.step (size : Nat) (state : Int × ℚ) (x : Int) : Int × ℚ :=
  if (add_overflow x state.1).1 then
    (wrap64 x, ld_round (state.2 + ld_round ((state.1 : ℚ) / (size : ℚ))))
  else
    (state.1 + x, state.2)

/-- The pairs `(accumulator, res)` before the loop of `average` and after each of its
iterations. -/
def average.states (size : Nat) (l : List Int) : List (Int × ℚ) :=
  List.scanl (average.step size) (0, 0) l

/-- The accumulators that `average` divides by `size`: those flushed on the way, then the
final one. -/
def average.chunks : List Int → Int → List Int
  | [], accumulator => [accumulator]
  | x :: rest, accumulator =>
    if (add_overflow x accumulator).1 then accumulator :: average.chunks rest (wrap64 x)
    else average.chunks rest (accumulator + x)

/-- A range of unsigned 64-bit integers. -/
def InRangeU64 (l : List Int) : Prop := ∀ x ∈ l, 0 ≤ x ∧ x ≤ 2 ^ 64 - 1

instance (l : List Int) : Decidable (InRangeU64 l) := by
  unfold InRangeU64; infer_instance

/-- A range of 32 elements: fifteen times -1, fifteen times 1, and two zeros. -/
def spread_sample : List Int := List.replicate 15 (-1) ++ List.replicate 15 1 ++ [0, 0]

/-! ## Boundaries of the regions -/

/-- The content of `[first, last)` after the partition steps. -/
def Regions.range (g : Regions) : List Int := g.r0 ++ g.r1 ++ g.eq ++ g.r2 ++ g.r3

/-- Position of `middle1`, counted from `first`. -/
def Regions.middle1 (g : Regions) : Nat := g.r0.length

/-- Position of `middle2`, counted from `first`. -/
def Regions.middle2 (g : Regions) : Nat :=
  g.r0.length + g.r1.length + g.eq.length + g.r2.length

/-- The calls `numeric_quicksort_impl(first, last, size, compare)` that a call of
`numeric_quicksort` on the range `l0` can make: the call of line 166 with
`std::distance(first, last)`, and, from a call that takes the partition path, the four
recursive calls of lines 147-157 with the sizes of `sizes[]`. -/
inductive Call (P : Partitioner) (compare : XReal → XReal → Bool) (l0 : List Int) :
    List Int → Nat → Prop
  | root : Call P compare l0 l0 l0.length
  | rec0 {l : List Int} {size : Nat} {g : Regions} :
      Call P compare l0 l size → ¬ size < 32 → partition_ranges P compare l size = some g →
      Call P compare l0 g.r0 g.r0.length
  | rec3 {l : List Int} {size : Nat} {g : Regions} :
      Call P compare l0 l size → ¬ size < 32 → partition_ranges P compare l size = some g →
      Call P compare l0 g.r3 g.r3.length
  | rec1 {l : List Int} {size : Nat} {g : Regions} :
      Call P compare l0 l size → ¬ size < 32 → partition_ranges P compare l size = some g →
      Call P compare l0 g.r1 g.r1.length
  | rec2 {l : List Int} {size : Nat} {g : Regions} :
      Call P compare l0 l size → ¬ size < 32 → partition_ranges P compare l size = some g →
      Call P compare l0 g.r2 g.r2.length

/-! ## Rounding to `long double` -/

theorem bit_length_zero (fuel : Nat) : bit_length fuel 0 = 0 := by
  cases fuel <;> simp [bit_length]

theorem bit_length_spec : ∀ (fuel n : Nat), n ≤ fuel → 0 < n →
    2 ^ (bit_length fuel n - 1) ≤ n ∧ n < 2 ^ bit_length fuel n ∧ 0 < bit_length fuel n := by
  intro fuel
  induction fuel with
  | zero => intro n h0 h1; omega
  | succ fuel ih =>
    intro n hn hpos
    rw [bit_length, if_neg (by omega)]
    by_cases h1 : n / 2 = 0
    · rw [h1, bit_length_zero]
      have : n = 1 := by omega
      subst this
      simp
    · obtain ⟨hlo, hhi, hb⟩ := ih (n / 2) (by omega) (by omega)
      generalize bit_length fuel (n / 2) = b at hlo hhi hb
      have hpow : 2 ^ b = 2 * 2 ^ (b - 1) := by
        rw [← pow_succ']
        congr 1
        omega
      refine ⟨?_, ?_, by omega⟩
      · rw [Nat.add_sub_cancel, hpow]
        omega
      · rw [pow_succ]
        omega

theorem abs_eq_natAbs_div_den (q : ℚ) : |q| = (q.num.natAbs : ℚ) / (q.den : ℚ) := by
  conv_lhs => rw [← Rat.num_div_den q]
  rw [abs_div, Nat.abs_cast, Nat.cast_natAbs, Int.cast_abs]

/-- The exponent found by `ld_exponent` brackets the magnitude of `q`. -/
theorem ld_exponent_spec (q : ℚ) (hq : q ≠ 0) :
    (2 : ℚ) ^ (ld_exponent q + 63) ≤ |q| ∧ |q| < (2 : ℚ) ^ (ld_exponent q + 64) := by
  have ha : 0 < q.num.natAbs := Int.natAbs_pos.2 (Rat.num_ne_zero.2 hq)
  have hb : 0 < q.den := q.den_pos
  obtain ⟨a1, a2, a3⟩ := bit_length_spec _ _ (le_refl q.num.natAbs) ha
  obtain ⟨b1, b2, b3⟩ := bit_length_spec _ _ (le_refl q.den) hb
  have habs := abs_eq_natAbs_div_den q
  unfold ld_exponent
  generalize bit_length q.num.natAbs q.num.natAbs = la at a1 a2 a3
  generalize bit_length q.den q.den = lb at b1 b2 b3
  generalize q.num.natAbs = a at ha a1 a2 habs
  generalize q.den = b at hb b1 b2 habs
  have hbq : (0 : ℚ) < (b : ℚ) := by exact_mod_cast hb
  have h2 : (2 : ℚ) ≠ 0 := by norm_num
  have hla : (2 : ℚ) ^ la = 2 * 2 ^ (la - 1) := by
    rw [← pow_succ']; congr 1; omega
  have hlb : (2 : ℚ) ^ lb = 2 * 2 ^ (lb - 1) := by
    rw [← pow_succ']; congr 1; omega
  have a1q : (2 : ℚ) ^ (la - 1) ≤ (a : ℚ) := by exact_mod_cast a1
  have a2q : (a : ℚ) < (2 : ℚ) ^ la := by exact_mod_cast a2
  have b1q : (2 : ℚ) ^ (lb - 1) ≤ (b : ℚ) := by exact_mod_cast b1
  have b2q : (b : ℚ) < (2 : ℚ) ^ lb := by exact_mod_cast b2
  have hk : (2 : ℚ) ^ ((la : ℤ) - (lb : ℤ)) = 2 ^ la / 2 ^ lb := by
    rw [zpow_sub₀ h2, zpow_natCast, zpow_natCast]
  have hlbpos : (0 : ℚ) < 2 ^ lb := by positivity
  have hlapos : (0 : ℚ) < 2 ^ (la - 1) := by positivity
  have hlbpos' : (0 : ℚ) < 2 ^ (lb - 1) := by positivity
  have hupper : |q| < (2 : ℚ) ^ ((la : ℤ) - (lb : ℤ) + 1) := by
    rw [zpow_add_one₀ h2, hk, habs, div_lt_iff₀ hbq, div_mul_eq_mul_div, div_mul_eq_mul_div,
      lt_div_iff₀ hlbpos, hlb]
    nlinarith
  have hlower : (2 : ℚ) ^ ((la : ℤ) - (lb : ℤ) - 1) ≤ |q| := by
    rw [zpow_sub_one₀ h2, hk, habs, le_div_iff₀ hbq]
    have e1 : (2 : ℚ) ^ la / 2 ^ lb * 2⁻¹ * (b : ℚ) = (2 ^ (la - 1) * (b : ℚ)) / 2 ^ lb := by
      rw [hla]; field_simp; ring
    have e2 : (2 : ℚ) ^ (la - 1) * (b : ℚ) ≤ (a : ℚ) * 2 ^ lb :=
      mul_le_mul a1q b2q.le hbq.le (by positivity)
    rw [e1, div_le_iff₀ hlbpos]
    exact e2
  split
  · rename_i hle
    constructor
    · rw [sub_add_cancel]; exact hle
    · have : (la : ℤ) - (lb : ℤ) - 63 + 64 = (la : ℤ) - (lb : ℤ) + 1 := by ring
      rw [this]; exact hupper
  · rename_i hnle
    constructor
    · have : (la : ℤ) - (lb : ℤ) - 1 - 63 + 63 = (la : ℤ) - (lb : ℤ) - 1 := by ring
      rw [this]; exact hlower
    · have : (la : ℤ) - (lb : ℤ) - 1 - 63 + 64 = (la : ℤ) - (lb : ℤ) := by ring
      rw [this]; exact not_le.1 hnle

theorem round_half_even_cases (s : ℚ) :
    (round_half_even s = ⌊s⌋ ∧ s - (⌊s⌋ : ℚ) ≤ 1 / 2) ∨
    (round_half_even s = ⌊s⌋ + 1 ∧ 1 / 2 ≤ s - (⌊s⌋ : ℚ)) := by
  unfold round_half_even
  split
  · left; exact ⟨rfl, by linarith⟩
  · rename_i h1
    split
    · right; exact ⟨rfl, by linarith⟩
    · rename_i h2
      have : s - (⌊s⌋ : ℚ) = 1 / 2 := le_antisymm (not_lt.1 h2) (not_lt.1 h1)
      split
      · left; exact ⟨rfl, by linarith⟩
      · right; exact ⟨rfl, by linarith⟩

/-- The result of `round_half_even` is an integer nearest to `s`. -/
theorem round_half_even_nearest (s : ℚ) (j : ℤ) :
    |s - (round_half_even s : ℚ)| ≤ |s - (j : ℚ)| := by
  have hf1 : ((⌊s⌋ : ℤ) : ℚ) ≤ s := Int.floor_le s
  have hf2 : s < ((⌊s⌋ : ℤ) : ℚ) + 1 := Int.lt_floor_add_one s
  have hj : (j : ℚ) ≤ ((⌊s⌋ : ℤ) : ℚ) ∨ ((⌊s⌋ : ℤ) : ℚ) + 1 ≤ (j : ℚ) := by
    rcases le_or_lt j ⌊s⌋ with h | h
    · left; exact_mod_cast h
    · right; exact_mod_cast h
  rcases round_half_even_cases s with ⟨hr, hd⟩ | ⟨hr, hd⟩
  · rw [hr, abs_of_nonneg (by linarith)]
    rcases hj with hj | hj
    · exact le_trans (by linarith) (le_abs_self _)
    · exact le_trans (by linarith) (neg_le_abs _)
  · rw [hr, Int.cast_add, Int.cast_one, abs_of_nonpos (by linarith)]
    rcases hj with hj | hj
    · exact le_trans (by linarith) (le_abs_self _)
    · exact le_trans (by linarith) (neg_le_abs _)

theorem representable_zero : Representable 0 := ⟨0, 0, by norm_num, by simp⟩

theorem representable_intCast (z : ℤ) (hz : |z| ≤ 2 ^ 64) : Representable (z : ℚ) := by
  rcases lt_or_eq_of_le hz with h | h
  · exact ⟨z, 0, h, by simp⟩
  · rcases abs_eq (by norm_num : (0 : ℤ) ≤ 2 ^ 64) |>.1 h with h | h
    · exact ⟨1, 64, by norm_num, by rw [h]; norm_num⟩
    · exact ⟨-1, 64, by norm_num, by rw [h]; norm_num⟩

/-- A representable number of magnitude at least `2^(e+63)` is an integer multiple of
`2^e`. -/
theorem representable_multiple {y : ℚ} (hy : Representable y) (e : ℤ)
    (h : (2 : ℚ) ^ (e + 63) ≤ |y|) : ∃ j : ℤ, y = (j : ℚ) * 2 ^ e := by
  obtain ⟨m, k, hm, rfl⟩ := hy
  have h2 : (2 : ℚ) ≠ 0 := by norm_num
  have hpos : (0 : ℚ) < 2 ^ k := zpow_pos (by norm_num) k
  have hmq : |(m : ℚ)| < 2 ^ 64 := by exact_mod_cast hm
  have hlt : (2 : ℚ) ^ (e + 63) < 2 ^ (k + 64) := by
    calc (2 : ℚ) ^ (e + 63) ≤ |(m : ℚ) * 2 ^ k| := h
      _ = |(m : ℚ)| * 2 ^ k := by rw [abs_mul, abs_of_pos hpos]
      _ < 2 ^ 64 * 2 ^ k := by nlinarith
      _ = 2 ^ (k + 64) := by
          rw [zpow_add₀ h2, mul_comm]; norm_num
  have hek : e ≤ k := by
    have := (zpow_lt_zpow_iff_right₀ (by norm_num : (1 : ℚ) < 2)).1 hlt
    omega
  refine ⟨m * 2 ^ (k - e).toNat, ?_⟩
  have hke : ((k - e).toNat : ℤ) = k - e := Int.toNat_of_nonneg (by omega)
  have : (2 : ℚ) ^ k = 2 ^ (k - e).toNat * 2 ^ e := by
    rw [← zpow_natCast, hke, ← zpow_add₀ h2]
    congr 1; ring
  rw [this]
  push_cast
  ring

theorem round_half_even_abs_sub_le (s : ℚ) : |s - (round_half_even s : ℚ)| ≤ 1 / 2 := by
  have hf1 : ((⌊s⌋ : ℤ) : ℚ) ≤ s := Int.floor_le s
  have hf2 : s < ((⌊s⌋ : ℤ) : ℚ) + 1 := Int.lt_floor_add_one s
  rcases round_half_even_cases s with ⟨hr, hd⟩ | ⟨hr, hd⟩
  · rw [hr, abs_of_nonneg (by linarith)]; exact hd
  · rw [hr, Int.cast_add, Int.cast_one, abs_of_nonpos (by linarith)]; linarith

theorem ld_round_zero : ld_round 0 = 0 := by simp [ld_round]

theorem ld_round_of_ne_zero {q : ℚ} (hq : q ≠ 0) :
    ld_round q = (round_half_even (q / 2 ^ ld_exponent q) : ℚ) * 2 ^ ld_exponent q := by
  rw [ld_round, if_neg hq]

theorem scaled_bounds {q : ℚ} (hq : q ≠ 0) :
    (2 : ℚ) ^ 63 ≤ |q / 2 ^ ld_exponent q| ∧ |q / 2 ^ ld_exponent q| < (2 : ℚ) ^ 64 := by
  obtain ⟨h1, h2⟩ := ld_exponent_spec q hq
  have hP : (0 : ℚ) < 2 ^ ld_exponent q := zpow_pos (by norm_num) _
  have h2' : (2 : ℚ) ≠ 0 := by norm_num
  rw [abs_div, abs_of_pos hP, le_div_iff₀ hP, div_lt_iff₀ hP]
  constructor
  · have : (2 : ℚ) ^ 63 * 2 ^ ld_exponent q = 2 ^ (ld_exponent q + 63) := by
      rw [zpow_add₀ h2', mul_comm]; norm_num
    rw [this]; exact h1
  · have : (2 : ℚ) ^ 64 * 2 ^ ld_exponent q = 2 ^ (ld_exponent q + 64) := by
      rw [zpow_add₀ h2', mul_comm]; norm_num
    rw [this]; exact h2

/-- Every result of `ld_round` has a 64-bit significand. -/
theorem ld_round_representable (q : ℚ) : Representable (ld_round q) := by
  by_cases hq : q = 0
  · rw [hq, ld_round_zero]; exact representable_zero
  rw [ld_round_of_ne_zero hq]
  obtain ⟨-, hs⟩ := scaled_bounds hq
  have hn := round_half_even_abs_sub_le (q / 2 ^ ld_exponent q)
  generalize q / 2 ^ ld_exponent q = s at hs hn
  generalize round_half_even s = n at hn
  have h2' : (2 : ℚ) ≠ 0 := by norm_num
  have hnq : |(n : ℚ)| < 2 ^ 64 + 1 := by
    have h1 : |(n : ℚ)| ≤ |s| + |s - (n : ℚ)| := by
      have := abs_sub_abs_le_abs_sub (n : ℚ) s
      rw [abs_sub_comm (n : ℚ) s] at this
      linarith
    linarith
  have hnz : |n| < 2 ^ 64 + 1 := by exact_mod_cast hnq
  rcases lt_or_eq_of_le (Int.lt_add_one_iff.1 hnz) with h | h
  · exact ⟨n, ld_exponent q, h, rfl⟩
  · rcases (abs_eq (by norm_num : (0 : ℤ) ≤ 2 ^ 64)).1 h with h | h
    · refine ⟨1, ld_exponent q + 64, by norm_num, ?_⟩
      rw [h, zpow_add₀ h2']; push_cast; ring
    · refine ⟨-1, ld_exponent q + 64, by norm_num, ?_⟩
      rw [h, zpow_add₀ h2']; push_cast; ring

/-- The result of `ld_round` is a representable number nearest to `q`. -/
theorem ld_round_nearest (q : ℚ) {y : ℚ} (hy : Representable y) :
    |q - ld_round q| ≤ |q - y| := by
  by_cases hq : q = 0
  · rw [hq, ld_round_zero, sub_zero, abs_zero]; exact abs_nonneg _
  rw [ld_round_of_ne_zero hq]
  obtain ⟨hlo, -⟩ := ld_exponent_spec q hq
  have hP : (0 : ℚ) < 2 ^ ld_exponent q := zpow_pos (by norm_num) _
  have h2' : (2 : ℚ) ≠ 0 := by norm_num
  have hA : ∀ j : ℤ, |q - (round_half_even (q / 2 ^ ld_exponent q) : ℚ) * 2 ^ ld_exponent q|
      ≤ |q - (j : ℚ) * 2 ^ ld_exponent q| := by
    intro j
    have hn := round_half_even_nearest (q / 2 ^ ld_exponent q) j
    have e1 : ∀ t : ℚ, q - t * 2 ^ ld_exponent q
        = (q / 2 ^ ld_exponent q - t) * 2 ^ ld_exponent q := by
      intro t; field_simp; ring
    rw [e1, e1, abs_mul, abs_mul, abs_of_pos hP]
    exact mul_le_mul_of_nonneg_right hn hP.le
  by_cases hbig : (2 : ℚ) ^ (ld_exponent q + 63) ≤ |y|
  · obtain ⟨j, rfl⟩ := representable_multiple hy _ hbig
    exact hA j
  · have hbig : |y| < (2 : ℚ) ^ (ld_exponent q + 63) := not_le.1 hbig
    have hpow : (2 : ℚ) ^ (ld_exponent q + 63) = 2 ^ 63 * 2 ^ ld_exponent q := by
      rw [zpow_add₀ h2', mul_comm]; norm_num
    rcases lt_or_gt_of_ne hq with hneg | hpos
    · have h1 := hA (-(2 ^ 63))
      refine le_trans h1 ?_
      rw [abs_of_neg hneg] at hlo
      have hy' := abs_lt.1 hbig
      push_cast
      rw [abs_of_nonpos (by rw [hpow] at hlo; linarith), abs_of_neg (by linarith [hy'.1])]
      rw [hpow] at hy'
      linarith [hy'.1]
    · have h1 := hA (2 ^ 63)
      refine le_trans h1 ?_
      rw [abs_of_pos hpos] at hlo
      have hy' := abs_lt.1 hbig
      push_cast
      rw [abs_of_nonneg (by rw [hpow] at hlo; linarith), abs_of_pos (by linarith [hy'.2])]
      rw [hpow] at hy'
      linarith [hy'.2]

/-- A representable number is not changed by rounding. -/
theorem ld_round_of_representable {x : ℚ} (hx : Representable x) : ld_round x = x := by
  have h := ld_round_nearest x hx
  rw [sub_self, abs_zero] at h
  have := abs_eq_zero.1 (le_antisymm h (abs_nonneg _))
  linarith

theorem ld_round_idem (q : ℚ) : ld_round (ld_round q) = ld_round q :=
  ld_round_of_representable (ld_round_representable q)

theorem ld_round_intCast (z : ℤ) (hz : |z| ≤ 2 ^ 64) : ld_round (z : ℚ) = z :=
  ld_round_of_representable (representable_intCast z hz)

/-- Rounding is monotone. -/
theorem ld_round_mono {x y : ℚ} (hxy : x ≤ y) : ld_round x ≤ ld_round y := by
  by_contra hlt
  have hlt : ld_round y < ld_round x := not_le.1 hlt
  have hx := sq_le_sq.2 (ld_round_nearest x (ld_round_representable y))
  have hy := sq_le_sq.2 (ld_round_nearest y (ld_round_representable x))
  have hx2 : ld_round x + ld_round y ≤ 2 * x := by nlinarith
  have hy2 : 2 * y ≤ ld_round x + ld_round y := by nlinarith
  have : x = y := by linarith
  rw [this] at hlt
  exact lt_irrefl _ hlt

theorem ld_round_nonneg {q : ℚ} (hq : 0 ≤ q) : 0 ≤ ld_round q := by
  have := ld_round_mono hq
  rwa [ld_round_zero] at this

theorem ld_round_le_of_le {q b : ℚ} (hb : Representable b) (h : q ≤ b) : ld_round q ≤ b := by
  have := ld_round_mono h
  rwa [ld_round_of_representable hb] at this

theorem le_ld_round_of_le {q a : ℚ} (ha : Representable a) (h : a ≤ q) : a ≤ ld_round q := by
  have := ld_round_mono h
  rwa [ld_round_of_representable ha] at this

/-! ## The square root -/

/-- The square root of a positive value is positive: the significand of the result is
at least `2^63`. -/
theorem ld_sqrt_pos {q : ℚ} (hq : 0 < q) : 0 < ld_sqrt q := by
  have hspec := (ld_exponent_spec q hq.ne').1
  rw [abs_of_pos hq] at hspec
  have h4 : (4 : ℚ) ^ ((ld_exponent q + 63) / 2 - 63) ≤ (2 : ℚ) ^ (ld_exponent q + 63) := by
    have e4 : (4 : ℚ) = 2 ^ (2 : ℤ) := by norm_num
    rw [e4, ← zpow_mul]
    apply zpow_le_zpow_right₀ (by norm_num)
    omega
  have h4pos : (0 : ℚ) < (4 : ℚ) ^ ((ld_exponent q + 63) / 2 - 63) := zpow_pos (by norm_num) _
  have hx : 1 ≤ q / (4 : ℚ) ^ ((ld_exponent q + 63) / 2 - 63) := by
    rw [le_div_iff₀ h4pos, one_mul]
    exact le_trans h4 hspec
  unfold ld_sqrt
  rw [if_neg (not_le.2 hq)]
  apply mul_pos _ (zpow_pos (by norm_num) _)
  split
  · rename_i h1
    rcases Nat.eq_zero_or_pos (isqrt ⌊q / (4 : ℚ) ^ ((ld_exponent q + 63) / 2 - 63)⌋.natAbs)
      with h0 | h0
    · rw [h0] at h1
      norm_num at h1
      linarith
    · exact_mod_cast h0
  · split
    · positivity
    · rename_i h1 h2
      split
      · rcases Nat.eq_zero_or_pos
          (isqrt ⌊q / (4 : ℚ) ^ ((ld_exponent q + 63) / 2 - 63)⌋.natAbs) with h0 | h0
        · rw [h0] at h1 h2
          norm_num at h1 h2
          linarith
        · exact_mod_cast h0
      · positivity

/-! ## Basic facts -/

theorem XReal.lt_ofInt (a b : Int) : XReal.lt (XReal.ofInt a) (XReal.ofInt b) = decide (a < b) := by
  simp [XReal.lt, XReal.ofInt]

theorem less_ofInt (a b : Int) : less (XReal.ofInt a) (XReal.ofInt b) = decide (a < b) :=
  XReal.lt_ofInt a b

theorem greater_ofInt (a b : Int) : greater (XReal.ofInt a) (XReal.ofInt b) = decide (b < a) :=
  XReal.lt_ofInt b a

theorem less_int_pivot {x : Int} {p : XReal} :
    less (XReal.ofInt x) p = true ↔ (x : ℚ) < p.val := by
  simp [less, XReal.lt, XReal.ofInt]

theorem less_pivot_int {x : Int} {p : XReal} :
    less p (XReal.ofInt x) = true ↔ p.val < (x : ℚ) := by
  simp [less, XReal.lt, XReal.ofInt]

theorem less_int_pivot_false {x : Int} {p : XReal} :
    less (XReal.ofInt x) p = false ↔ p.val ≤ (x : ℚ) := by
  simp [less, XReal.lt, XReal.ofInt]

theorem less_pivot_int_false {x : Int} {p : XReal} :
    less p (XReal.ofInt x) = false ↔ (x : ℚ) ≤ p.val := by
  simp [less, XReal.lt, XReal.ofInt]

theorem less_int_rat (x : Int) (q : ℚ) :
    less (XReal.ofInt x) (XReal.ofRat q) = decide ((x : ℚ) < q) := rfl

theorem less_rat_int (x : Int) (q : ℚ) :
    less (XReal.ofRat q) (XReal.ofInt x) = decide (q < (x : ℚ)) := rfl

theorem wrap64_of_inRange (x : Int) (h : INTMAX_MIN ≤ x ∧ x ≤ INTMAX_MAX) : wrap64 x = x := by
  unfold INTMAX_MIN INTMAX_MAX at h
  unfold wrap64
  rw [Int.emod_eq_of_lt (by omega) (by omega)]
  omega

theorem InRange.cons {x : Int} {l : List Int} (h : InRange (x :: l)) :
    (INTMAX_MIN ≤ x ∧ x ≤ INTMAX_MAX) ∧ InRange l :=
  ⟨h x (List.mem_cons_self x l), fun y hy => h y (List.mem_cons_of_mem x hy)⟩

theorem numeric_pivots_eq (l : List Int) (size : Nat) (hs : size ≠ 0) :
    numeric_pivots l size
      = some (⟨ld_round (average l size - std_deviation l size)⟩,
              ⟨ld_round (average l size + std_deviation l size)⟩) := by
  simp [numeric_pivots, std_deviation, hs]

/-! ## The fallback sorter -/

section InsertionSort

variable {α : Type} (compare : α → α → Bool)

theorem sift_perm (tmp : α) (before : List α) :
    (insertion_sort.sift compare tmp before).Perm (tmp :: before) := by
  induction before with
  | nil => simp [insertion_sort.sift]
  | cons p before ih =>
    rw [insertion_sort.sift]
    split
    · exact (List.Perm.cons p ih).trans (List.Perm.swap tmp p before)
    · exact List.Perm.refl _

theorem step_eq_sift (x : α) (before : List α) :
    insertion_sort.step compare x before = insertion_sort.sift compare x before := by
  cases before <;> rfl

theorem loop_perm (before rest : List α) :
    (insertion_sort.loop compare before rest).Perm (before.reverse ++ rest) := by
  induction rest generalizing before with
  | nil => simp [insertion_sort.loop]
  | cons x rest ih =>
    rw [insertion_sort.loop]
    refine (ih _).trans ?_
    rw [step_eq_sift]
    have h1 : (insertion_sort.sift compare x before).reverse.Perm (before.reverse ++ [x]) :=
      (List.reverse_perm _).trans
        ((sift_perm compare x before).trans
          ((List.perm_append_singleton x before).symm.trans
            ((List.reverse_perm before).symm.append_right [x])))
    simpa using h1.append_right rest

/-- The fallback sorter permutes its range, whatever the comparator. -/
theorem insertion_sort_perm (l : List α) : (insertion_sort compare l).Perm l := by
  cases l with
  | nil => exact List.Perm.refl _
  | cons x rest => simpa [insertion_sort] using loop_perm compare [x] rest

theorem sift_pairwise (asymm : ∀ a b, compare a b = true → compare b a = false)
    (negtrans : ∀ a b c, compare a b = false → compare b c = false → compare a c = false)
    (tmp : α) (before : List α) (h : before.Pairwise fun a b => compare a b = false) :
    (insertion_sort.sift compare tmp before).Pairwise fun a b => compare a b = false := by
  induction before with
  | nil => simp [insertion_sort.sift]
  | cons p before ih =>
    rw [List.pairwise_cons] at h
    rw [insertion_sort.sift]
    split
    · rename_i hlt
      rw [List.pairwise_cons]
      refine ⟨?_, ih h.2⟩
      intro y hy
      rcases List.mem_cons.1 ((sift_perm compare tmp before).subset hy) with rfl | hy
      · exact asymm _ _ hlt
      · exact h.1 y hy
    · rename_i hge
      have hge : compare tmp p = false := by simpa using hge
      rw [List.pairwise_cons]
      refine ⟨?_, List.pairwise_cons.2 h⟩
      intro y hy
      rcases List.mem_cons.1 hy with rfl | hy
      · exact hge
      · exact negtrans _ _ _ hge (h.1 y hy)

theorem loop_pairwise (asymm : ∀ a b, compare a b = true → compare b a = false)
    (negtrans : ∀ a b c, compare a b = false → compare b c = false → compare a c = false)
    (before rest : List α) (h : before.Pairwise fun a b => compare a b = false) :
    (insertion_sort.loop compare before rest).Pairwise fun a b => compare b a = false := by
  induction rest generalizing before with
  | nil =>
    rw [insertion_sort.loop, List.pairwise_reverse]
    exact h
  | cons x rest ih =>
    rw [insertion_sort.loop, step_eq_sift]
    exact ih _ (sift_pairwise compare asymm negtrans x before h)

/-- Under a strict weak ordering no element of the output compares less than an
earlier one. -/
theorem insertion_sort_pairwise (asymm : ∀ a b, compare a b = true → compare b a = false)
    (negtrans : ∀ a b c, compare a b = false → compare b c = false → compare a c = false)
    (l : List α) :
    (insertion_sort compare l).Pairwise fun a b => compare b a = false := by
  cases l with
  | nil => exact List.Pairwise.nil
  | cons x rest =>
    exact loop_pairwise compare asymm negtrans [x] rest (List.pairwise_singleton _ _)

end InsertionSort

theorem insertion_sort_less_sorted (l : List Int) :
    (insertion_sort (fun a b : Int => less (XReal.ofInt a) (XReal.ofInt b)) l).Sorted (· ≤ ·) := by
  have h := insertion_sort_pairwise (fun a b : Int => less (XReal.ofInt a) (XReal.ofInt b))
    (by intro a b; simp only [less_ofInt, decide_eq_true_iff, decide_eq_false_iff_not]; omega)
    (by intro a b c; simp only [less_ofInt, decide_eq_false_iff_not]; omega) l
  refine h.imp ?_
  intro a b hab
  simp only [less_ofInt, decide_eq_false_iff_not] at hab
  omega

/-! ## `std::partition` -/

theorem Partitioner.length_eq (P : Partitioner) (pred : Int → Bool) (l : List Int) :
    (P.run pred l).1.length + (P.run pred l).2.length = l.length := by
  rw [← List.length_append]
  exact (P.perm pred l).length_eq

theorem Partitioner.mem_iff (P : Partitioner) (pred : Int → Bool) (l : List Int) (x : Int) :
    x ∈ l ↔ x ∈ (P.run pred l).1 ∨ x ∈ (P.run pred l).2 := by
  rw [← List.mem_append]
  exact (P.perm pred l).mem_iff.symm

theorem Partitioner.fst_subset (P : Partitioner) (pred : Int → Bool) (l : List Int) :
    ∀ x ∈ (P.run pred l).1, x ∈ l := fun x hx => (P.mem_iff pred l x).2 (Or.inl hx)

theorem Partitioner.snd_subset (P : Partitioner) (pred : Int → Bool) (l : List Int) :
    ∀ x ∈ (P.run pred l).2, x ∈ l := fun x hx => (P.mem_iff pred l x).2 (Or.inr hx)

/-- When every element satisfies the predicate the second part is empty. -/
theorem Partitioner.snd_eq_nil (P : Partitioner) (pred : Int → Bool) (l : List Int)
    (h : ∀ x ∈ l, pred x = true) : (P.run pred l).2 = [] := by
  apply List.eq_nil_iff_forall_not_mem.2
  intro x hx
  have h1 := h x (P.snd_subset pred l x hx)
  have h2 := P.snd_false pred l x hx
  simp [h1] at h2

theorem Partitioner.fst_perm (P : Partitioner) (pred : Int → Bool) (l : List Int)
    (h : ∀ x ∈ l, pred x = true) : (P.run pred l).1.Perm l := by
  have hp := P.perm pred l
  rwa [P.snd_eq_nil pred l h, List.append_nil] at hp

/-! ## The partition steps, for any comparator -/

section Steps

variable (P : Partitioner) (compare : XReal → XReal → Bool) (pivots : XReal × XReal)
  (l : List Int)

theorem first_split_perm :
    ((first_split P compare pivots l).1 ++ (first_split P compare pivots l).2).Perm l :=
  P.perm _ l

theorem second_split_perm :
    ((second_split P compare pivots l).1 ++ (second_split P compare pivots l).2).Perm
      (first_split P compare pivots l).2 :=
  P.perm _ _

theorem middle_subset : ∀ x ∈ (second_split P compare pivots l).1, x ∈ l := fun x hx =>
  P.snd_subset _ l x (P.fst_subset _ _ x hx)

theorem mem_r0 {x : Int} (hx : x ∈ (partition_steps P compare pivots l).r0) :
    compare (XReal.ofInt x) pivots.1 = true :=
  P.fst_true _ l x hx

theorem mem_middle {x : Int} (hx : x ∈ (second_split P compare pivots l).1) :
    compare (XReal.ofInt x) pivots.1 = false ∧ compare pivots.2 (XReal.ofInt x) = false := by
  refine ⟨P.snd_false _ l x (P.fst_subset _ _ x hx), ?_⟩
  simpa using P.fst_true _ _ x hx

theorem mem_r3 {x : Int} (hx : x ∈ (partition_steps P compare pivots l).r3) :
    compare (XReal.ofInt x) pivots.1 = false ∧ compare pivots.2 (XReal.ofInt x) = true := by
  refine ⟨P.snd_false _ l x (P.snd_subset _ _ x hx), ?_⟩
  simpa using P.snd_false _ _ x hx

theorem mem_r1 {x : Int} (hx : x ∈ (partition_steps P compare pivots l).r1) :
    x ∈ (second_split P compare pivots l).1 ∧
      compare (XReal.ofInt x) (XReal.ofRat (new_pivot P compare pivots l)) = true :=
  ⟨P.fst_subset _ _ x hx, P.fst_true _ _ x hx⟩

theorem mem_eq {x : Int} (hx : x ∈ (partition_steps P compare pivots l).eq) :
    x ∈ (second_split P compare pivots l).1 ∧
      compare (XReal.ofInt x) (XReal.ofRat (new_pivot P compare pivots l)) = false ∧
      compare (XReal.ofRat (new_pivot P compare pivots l)) (XReal.ofInt x) = false := by
  have h3 := P.fst_subset _ _ x hx
  refine ⟨P.snd_subset _ _ x h3, P.snd_false _ _ x h3, ?_⟩
  simpa using P.fst_true _ _ x hx

theorem mem_r2 {x : Int} (hx : x ∈ (partition_steps P compare pivots l).r2) :
    x ∈ (second_split P compare pivots l).1 ∧
      compare (XReal.ofInt x) (XReal.ofRat (new_pivot P compare pivots l)) = false ∧
      compare (XReal.ofRat (new_pivot P compare pivots l)) (XReal.ofInt x) = true := by
  have h3 := P.snd_subset _ _ x hx
  refine ⟨P.snd_subset _ _ x h3, P.snd_false _ _ x h3, ?_⟩
  simpa using P.snd_false _ _ x hx

/-- The three inner regions make up `[middle1, middle2)`. -/
theorem inner_perm :
    ((partition_steps P compare pivots l).r1 ++ (partition_steps P compare pivots l).eq
      ++ (partition_steps P compare pivots l).r2).Perm (second_split P compare pivots l).1 := by
  have h3 := P.perm (fun elem => compare (XReal.ofInt elem)
    (XReal.ofRat (new_pivot P compare pivots l))) (second_split P compare pivots l).1
  have h4 := P.perm (fun elem => !compare (XReal.ofRat (new_pivot P compare pivots l))
    (XReal.ofInt elem)) (P.run (fun elem => compare (XReal.ofInt elem)
    (XReal.ofRat (new_pivot P compare pivots l))) (second_split P compare pivots l).1).2
  rw [List.append_assoc]
  exact (List.Perm.append_left _ h4).trans h3

/-- The five regions are a permutation of the range. -/
theorem partition_steps_perm :
    ((partition_steps P compare pivots l).r0 ++ (partition_steps P compare pivots l).r1
      ++ (partition_steps P compare pivots l).eq ++ (partition_steps P compare pivots l).r2
      ++ (partition_steps P compare pivots l).r3).Perm l := by
  have hin := inner_perm P compare pivots l
  have h2 := second_split_perm P compare pivots l
  have h1 := first_split_perm P compare pivots l
  have e : (partition_steps P compare pivots l).r0 ++ (partition_steps P compare pivots l).r1
      ++ (partition_steps P compare pivots l).eq ++ (partition_steps P compare pivots l).r2
      ++ (partition_steps P compare pivots l).r3
      = (first_split P compare pivots l).1 ++
        (((partition_steps P compare pivots l).r1 ++ (partition_steps P compare pivots l).eq
          ++ (partition_steps P compare pivots l).r2) ++ (second_split P compare pivots l).2) := by
    simp only [List.append_assoc]
    rfl
  rw [e]
  exact (List.Perm.append_left _ ((List.Perm.append_right _ hin).trans h2)).trans h1

end Steps

theorem partition_ranges_eq (P : Partitioner) (compare : XReal → XReal → Bool) (l : List Int)
    (size : Nat) (hs : size ≠ 0) :
    partition_ranges P compare l size
      = some (partition_steps P compare
          (⟨ld_round (average l size - std_deviation l size)⟩,
           ⟨ld_round (average l size + std_deviation l size)⟩) l) := by
  rw [partition_ranges, numeric_pivots_eq l size hs]

theorem partition_ranges_perm (P : Partitioner) (compare : XReal → XReal → Bool) (l : List Int)
    (size : Nat) (g : Regions) (h : partition_ranges P compare l size = some g) :
    (g.r0 ++ g.r1 ++ g.eq ++ g.r2 ++ g.r3).Perm l := by
  unfold partition_ranges at h
  split at h
  · exact absurd h (by simp)
  · rename_i pivots _
    have hg : partition_steps P compare pivots l = g := by simpa using h
    rw [← hg]
    exact partition_steps_perm P compare pivots l

/-- A region that misses some element of the range is strictly shorter than it. -/
theorem length_lt_of_not_mem {l all r : List Int} (hp : all.Perm l) (hr : r.Sublist all)
    {x : Int} (hx : x ∈ l) (hxr : x ∉ r) : r.length < l.length := by
  have hsub : r.Subperm l := hr.subperm.trans hp.subperm
  by_contra hlen
  have := hsub.perm_of_length_le (not_lt.1 hlen)
  exact hxr (this.mem_iff.2 hx)

/-! ## Unfolding `numeric_quicksort_impl` -/

theorem impl_small (P : Partitioner) (compare : XReal → XReal → Bool) (fuel : Nat)
    (l : List Int) (size : Nat) (h : size < 32) :
    numeric_quicksort_impl P compare fuel l size
      = some (insertion_sort (fun a b : Int => compare (XReal.ofInt a) (XReal.ofInt b)) l) := by
  cases fuel <;> simp [numeric_quicksort_impl, h]

theorem impl_zero (P : Partitioner) (compare : XReal → XReal → Bool)
    (l : List Int) (size : Nat) (h : ¬ size < 32) :
    numeric_quicksort_impl P compare 0 l size = none := by
  simp [numeric_quicksort_impl, h]

/-- One level of the recursion; the order of the two inner calls does not matter for
the result. -/
theorem impl_succ (P : Partitioner) (compare : XReal → XReal → Bool) (fuel : Nat)
    (l : List Int) (size : Nat) (h : ¬ size < 32) :
    numeric_quicksort_impl P compare (fuel + 1) l size
      = (partition_ranges P compare l size).bind fun g =>
          (numeric_quicksort_impl P compare fuel g.r0 g.r0.length).bind fun s0 =>
          (numeric_quicksort_impl P compare fuel g.r3 g.r3.length).bind fun s3 =>
          (numeric_quicksort_impl P compare fuel g.r1 g.r1.length).bind fun s1 =>
          (numeric_quicksort_impl P compare fuel g.r2 g.r2.length).bind fun s2 =>
            some (s0 ++ s1 ++ g.eq ++ s2 ++ s3) := by
  rw [numeric_quicksort_impl, if_neg h]
  cases partition_ranges P compare l size with
  | none => rfl
  | some g =>
    simp only [Option.some_bind]
    cases numeric_quicksort_impl P compare fuel g.r0 g.r0.length with
    | none => rfl
    | some s0 =>
      cases numeric_quicksort_impl P compare fuel g.r3 g.r3.length with
      | none => rfl
      | some s3 =>
        cases h1 : numeric_quicksort_impl P compare fuel g.r1 g.r1.length <;>
        cases h2 : numeric_quicksort_impl P compare fuel g.r2 g.r2.length <;>
        simp

theorem sublist_five (a b c d e : List Int) :
    a.Sublist (a ++ b ++ c ++ d ++ e) ∧ b.Sublist (a ++ b ++ c ++ d ++ e) ∧
    d.Sublist (a ++ b ++ c ++ d ++ e) ∧ e.Sublist (a ++ b ++ c ++ d ++ e) := by
  refine ⟨?_, ?_, ?_, ?_⟩
  · simp only [List.append_assoc]
    exact List.sublist_append_left _ _
  · simp only [List.append_assoc]
    exact (List.sublist_append_left _ _).trans (List.sublist_append_right _ _)
  · exact (List.sublist_append_right _ _).trans (List.sublist_append_left _ _)
  · exact List.sublist_append_right _ _

/-- Whatever the comparator and the size argument, a result of
`numeric_quicksort_impl` is a permutation of the range. -/
theorem impl_perm_of_some (P : Partitioner) (compare : XReal → XReal → Bool) :
    ∀ (fuel : Nat) (l : List Int) (size : Nat) (r : List Int),
      numeric_quicksort_impl P compare fuel l size = some r → r.Perm l := by
  intro fuel
  induction fuel with
  | zero =>
    intro l size r hr
    by_cases hsmall : size < 32
    · rw [impl_small P compare 0 l size hsmall] at hr
      obtain rfl := Option.some.inj hr
      exact insertion_sort_perm _ l
    · rw [impl_zero P compare l size hsmall] at hr
      exact absurd hr (by simp)
  | succ fuel ih =>
    intro l size r hr
    by_cases hsmall : size < 32
    · rw [impl_small P compare _ l size hsmall] at hr
      obtain rfl := Option.some.inj hr
      exact insertion_sort_perm _ l
    · rw [impl_succ P compare fuel l size hsmall] at hr
      obtain ⟨g, hg, hr⟩ := Option.bind_eq_some.1 hr
      obtain ⟨s0, e0, hr⟩ := Option.bind_eq_some.1 hr
      obtain ⟨s3, e3, hr⟩ := Option.bind_eq_some.1 hr
      obtain ⟨s1, e1, hr⟩ := Option.bind_eq_some.1 hr
      obtain ⟨s2, e2, hr⟩ := Option.bind_eq_some.1 hr
      obtain rfl := Option.some.inj hr
      exact (((((ih _ _ _ e0).append (ih _ _ _ e1)).append (List.Perm.refl g.eq)).append
        (ih _ _ _ e2)).append (ih _ _ _ e3)).trans (partition_ranges_perm P compare l size g hg)

/-! ## The regions as filters of the range -/

theorem Partitioner.fst_perm_filter (P : Partitioner) (pred : Int → Bool) (l : List Int) :
    (P.run pred l).1.Perm (l.filter pred) := by
  have hp := (P.perm pred l).filter pred
  rw [List.filter_append, List.filter_eq_self.2 (P.fst_true pred l),
    List.filter_eq_nil_iff.2 (fun x hx => by simp [P.snd_false pred l x hx]),
    List.append_nil] at hp
  exact hp

theorem Partitioner.snd_perm_filter (P : Partitioner) (pred : Int → Bool) (l : List Int) :
    (P.run pred l).2.Perm (l.filter fun x => !pred x) := by
  have hp := (P.perm pred l).filter (fun x => !pred x)
  rw [List.filter_append,
    List.filter_eq_nil_iff.2 (fun x hx => by simp [P.fst_true pred l x hx]),
    List.filter_eq_self.2 (fun x hx => by simp [P.snd_false pred l x hx]),
    List.nil_append] at hp
  exact hp

section Filters

variable (P : Partitioner) (compare : XReal → XReal → Bool) (pivots : XReal × XReal)
  (l : List Int)

theorem middle_perm_filter :
    (second_split P compare pivots l).1.Perm
      (l.filter fun x => !compare (XReal.ofInt x) pivots.1 && !compare pivots.2 (XReal.ofInt x)) := by
  refine (P.fst_perm_filter _ _).trans ?_
  refine ((P.snd_perm_filter _ l).filter _).trans ?_
  rw [List.filter_filter]
  exact List.Perm.of_eq (List.filter_congr fun x _ => by rw [Bool.and_comm])

theorem r1_perm_filter :
    (partition_steps P compare pivots l).r1.Perm
      ((second_split P compare pivots l).1.filter fun x =>
        compare (XReal.ofInt x) (XReal.ofRat (new_pivot P compare pivots l))) :=
  P.fst_perm_filter _ _

theorem r2_perm_filter :
    (partition_steps P compare pivots l).r2.Perm
      ((second_split P compare pivots l).1.filter fun x =>
        !compare (XReal.ofInt x) (XReal.ofRat (new_pivot P compare pivots l)) &&
        compare (XReal.ofRat (new_pivot P compare pivots l)) (XReal.ofInt x)) := by
  refine (P.snd_perm_filter _ _).trans ?_
  refine ((P.snd_perm_filter _ _).filter _).trans ?_
  rw [List.filter_filter]
  exact List.Perm.of_eq (List.filter_congr fun x _ => by simp [Bool.and_comm])

/-- The values of the five regions are pairwise distinct, whatever the comparator. -/
theorem regions_disjoint :
    List.Pairwise List.Disjoint
      [(partition_steps P compare pivots l).r0, (partition_steps P compare pivots l).r1,
       (partition_steps P compare pivots l).eq, (partition_steps P compare pivots l).r2,
       (partition_steps P compare pivots l).r3] := by
  have c0 := fun x hx => mem_r0 P compare pivots l (x := x) hx
  have c1 := fun x hx => mem_r1 P compare pivots l (x := x) hx
  have ce := fun x hx => mem_eq P compare pivots l (x := x) hx
  have c2 := fun x hx => mem_r2 P compare pivots l (x := x) hx
  have c3 := fun x hx => mem_r3 P compare pivots l (x := x) hx
  have cm := fun x hx => mem_middle P compare pivots l (x := x) hx
  simp only [List.pairwise_cons, List.mem_cons, List.mem_singleton, forall_eq_or_imp,
    forall_eq, List.not_mem_nil, false_implies, implies_true, List.Pairwise.nil, and_true]
  refine ⟨⟨?_, ?_, ?_, ?_⟩, ⟨?_, ?_, ?_⟩, ⟨?_, ?_⟩, ?_⟩ <;> intro x hx hy
  · have := c0 x hx; have := (cm x (c1 x hy).1).1; simp_all
  · have := c0 x hx; have := (cm x (ce x hy).1).1; simp_all
  · have := c0 x hx; have := (cm x (c2 x hy).1).1; simp_all
  · have := c0 x hx; have := (c3 x hy).1; simp_all
  · have := (c1 x hx).2; have := (ce x hy).2.1; simp_all
  · have := (c1 x hx).2; have := (c2 x hy).2.1; simp_all
  · have := (cm x (c1 x hx).1).2; have := (c3 x hy).2; simp_all
  · have := (ce x hx).2.2; have := (c2 x hy).2.2; simp_all
  · have := (cm x (ce x hx).1).2; have := (c3 x hy).2; simp_all
  · have := (cm x (c2 x hx).1).2; have := (c3 x hy).2; simp_all

end Filters

theorem average_loop_representable (size : Nat) (l : List Int) (accumulator : Int) (res : ℚ) :
    Representable (average.loop size l accumulator res) := by
  induction l generalizing accumulator res with
  | nil => exact ld_round_representable _
  | cons x rest ih =>
    rw [average.loop]
    split
    · exact ih _ _
    · exact ih _ _

/-- The value returned by `average` is a `long double`. -/
theorem average_representable (l : List Int) (size : Nat) : Representable (average l size) := by
  rw [average]
  split
  · exact representable_zero
  · exact average_loop_representable size l 0 0

theorem average_size_zero (l : List Int) : average l 0 = 0 := by simp [average]

/-- Without a flush the loop of `average` rounds one quotient and one sum. -/
theorem average_loop_no_flush (size : Nat) (l : List Int) (accumulator : Int) (res : ℚ)
    (h : average.no_flush l accumulator = true) :
    average.loop size l accumulator res
      = ld_round (res + ld_round (((accumulator + l.sum : Int) : ℚ) / (size : ℚ))) := by
  induction l generalizing accumulator with
  | nil => simp [average.loop]
  | cons x rest ih =>
    rw [average.no_flush, Bool.and_eq_true, Bool.not_eq_true'] at h
    rw [average.loop, if_neg (by simp [h.1]), ih _ h.2, List.sum_cons, add_assoc]

/-- Without a flush `average` returns the quotient of the sum by `size`, rounded once. -/
theorem average_no_flush (l : List Int) (size : Nat) (hs : size ≠ 0)
    (h : average.no_flush l 0 = true) :
    average l size = ld_round (((l.sum : Int) : ℚ) / (size : ℚ)) := by
  rw [average, if_neg hs, average_loop_no_flush size l 0 0 h, zero_add, zero_add, ld_round_idem]

theorem no_flush_of_bound (l : List Int) (accumulator : Int)
    (h : |accumulator| + ((l.map Int.natAbs).sum : Int) ≤ INTMAX_MAX) :
    average.no_flush l accumulator = true := by
  induction l generalizing accumulator with
  | nil => rfl
  | cons x rest ih =>
    simp only [List.map_cons, List.sum_cons, Nat.cast_add, Int.natCast_natAbs] at h
    have hr : (0 : Int) ≤ ((rest.map Int.natAbs).sum : Int) := Int.natCast_nonneg _
    have hax := abs_add accumulator x
    rw [average.no_flush, Bool.and_eq_true, Bool.not_eq_true']
    constructor
    · have h1 := abs_le.1 (le_trans (abs_add x accumulator) (by linarith : |x| + |accumulator| ≤ INTMAX_MAX))
      unfold INTMAX_MAX at h1
      simp only [add_overflow, INTMAX_MIN, INTMAX_MAX, decide_eq_false_iff_not, not_or, not_lt]
      constructor <;> omega
    · exact ih _ (by linarith)

theorem SumFits.no_flush {l : List Int} (h : SumFits l) : average.no_flush l 0 = true :=
  no_flush_of_bound l 0 (by simpa [SumFits] using h)

theorem SumFits.of_subperm {l r : List Int} (h : SumFits l) (hr : r.Subperm l) : SumFits r := by
  obtain ⟨m, hm, hsub⟩ := hr
  unfold SumFits at *
  have h1 : (r.map Int.natAbs).sum = (m.map Int.natAbs).sum := (hm.symm.map _).sum_eq
  have h2 : (m.map Int.natAbs).sum ≤ (l.map Int.natAbs).sum :=
    (hsub.map Int.natAbs).sum_le_sum (fun _ _ => Nat.zero_le _)
  have h3 : ((r.map Int.natAbs).sum : Int) ≤ ((l.map Int.natAbs).sum : Int) := by
    rw [h1]; exact_mod_cast h2
  linarith

theorem SumFits.mem {l : List Int} (h : SumFits l) {x : Int} (hx : x ∈ l) :
    |x| ≤ INTMAX_MAX := by
  have h1 : SumFits [x] := h.of_subperm (List.singleton_sublist.2 hx).subperm
  simpa [SumFits] using h1

theorem representable_of_abs_le {x : Int} (hx : |x| ≤ INTMAX_MAX) : Representable (x : ℚ) :=
  representable_intCast x (by unfold INTMAX_MAX at hx; omega)

theorem cast_sum_eq (l : List Int) : ((l.sum : Int) : ℚ) = (l.map fun x : Int => (x : ℚ)).sum := by
  induction l with
  | nil => simp
  | cons x rest ih => simp [ih]

/-- Some element is at least the mean. -/
theorem exists_mean_le (l : List Int) (hl : l ≠ []) :
    ∃ x ∈ l, ((l.sum : Int) : ℚ) / (l.length : ℚ) ≤ (x : ℚ) := by
  apply List.exists_le_of_sum_le hl (fun _ => ((l.sum : Int) : ℚ) / (l.length : ℚ))
    (fun x : Int => (x : ℚ))
  have hn : (l.length : ℚ) ≠ 0 := by
    simpa using hl
  rw [← cast_sum_eq, List.map_const', List.sum_replicate, nsmul_eq_mul, mul_div_cancel₀ _ hn]

/-- Some element is at most the mean. -/
theorem exists_le_mean (l : List Int) (hl : l ≠ []) :
    ∃ x ∈ l, (x : ℚ) ≤ ((l.sum : Int) : ℚ) / (l.length : ℚ) := by
  apply List.exists_le_of_sum_le hl (fun x : Int => (x : ℚ))
    (fun _ => ((l.sum : Int) : ℚ) / (l.length : ℚ))
  have hn : (l.length : ℚ) ≠ 0 := by
    simpa using hl
  rw [← cast_sum_eq, List.map_const', List.sum_replicate, nsmul_eq_mul, mul_div_cancel₀ _ hn]

/-- Without a flush the rounded mean does not exceed the largest element. -/
theorem exists_average_le (l : List Int) (h : SumFits l) (hl : l ≠ []) :
    ∃ x ∈ l, average l l.length ≤ (x : ℚ) := by
  obtain ⟨x, hx, hm⟩ := exists_mean_le l hl
  refine ⟨x, hx, ?_⟩
  rw [average_no_flush l l.length (by simpa using hl) h.no_flush]
  exact ld_round_le_of_le (representable_of_abs_le (h.mem hx)) hm

/-- Without a flush the rounded mean is not below the smallest element. -/
theorem exists_le_average (l : List Int) (h : SumFits l) (hl : l ≠ []) :
    ∃ x ∈ l, (x : ℚ) ≤ average l l.length := by
  obtain ⟨x, hx, hm⟩ := exists_le_mean l hl
  refine ⟨x, hx, ?_⟩
  rw [average_no_flush l l.length (by simpa using hl) h.no_flush]
  exact le_ld_round_of_le (representable_of_abs_le (h.mem hx)) hm

theorem ld_sqrt_nonneg (q : ℚ) : 0 ≤ ld_sqrt q := by
  unfold ld_sqrt
  split
  · exact le_refl 0
  · apply mul_nonneg
    · split
      · positivity
      · split
        · positivity
        · split <;> positivity
    · exact (zpow_pos (by norm_num) _).le

theorem std_deviation_nonneg (l : List Int) (size : Nat) : 0 ≤ std_deviation l size :=
  ld_round_nonneg (div_nonneg (ld_sqrt_nonneg _) (ld_sqrt_nonneg _))

/-- The low pivot is not above the computed mean, the high pivot not below it. -/
theorem pivots_bracket_average (l : List Int) (size : Nat) :
    ld_round (average l size - std_deviation l size) ≤ average l size ∧
    average l size ≤ ld_round (average l size + std_deviation l size) := by
  have h0 := std_deviation_nonneg l size
  have hr := average_representable l size
  exact ⟨ld_round_le_of_le hr (by linarith), le_ld_round_of_le hr (by linarith)⟩

/-! ## The partition steps under the natural order -/

theorem partition_ranges_some {P : Partitioner} {compare : XReal → XReal → Bool} {l : List Int}
    {size : Nat} {g : Regions} (h : partition_ranges P compare l size = some g) :
    ∃ pivots, numeric_pivots l size = some pivots ∧ g = partition_steps P compare pivots l := by
  unfold partition_ranges at h
  split at h
  · exact absurd h (by simp)
  · rename_i pivots hp
    exact ⟨pivots, hp, by simpa using h.symm⟩

/-- Where the elements of the five regions lie, for any pivots. -/
theorem regions_bounds (P : Partitioner) (l : List Int) (low high : XReal) :
    (∀ x ∈ (partition_steps P less (low, high) l).r0, (x : ℚ) < low.val) ∧
    (∀ x ∈ (partition_steps P less (low, high) l).r1,
        low.val ≤ (x : ℚ) ∧ (x : ℚ) < new_pivot P less (low, high) l ∧ (x : ℚ) ≤ high.val) ∧
    (∀ x ∈ (partition_steps P less (low, high) l).eq,
        low.val ≤ (x : ℚ) ∧ (x : ℚ) = new_pivot P less (low, high) l ∧ (x : ℚ) ≤ high.val) ∧
    (∀ x ∈ (partition_steps P less (low, high) l).r2,
        low.val ≤ (x : ℚ) ∧ new_pivot P less (low, high) l < (x : ℚ) ∧ (x : ℚ) ≤ high.val) ∧
    (∀ x ∈ (partition_steps P less (low, high) l).r3,
        low.val ≤ (x : ℚ) ∧ high.val < (x : ℚ)) := by
  have hmid : ∀ x ∈ (second_split P less (low, high) l).1,
      low.val ≤ (x : ℚ) ∧ (x : ℚ) ≤ high.val := by
    intro x hx
    have := mem_middle P less (low, high) l hx
    exact ⟨less_int_pivot_false.1 this.1, less_pivot_int_false.1 this.2⟩
  refine ⟨?_, ?_, ?_, ?_, ?_⟩
  · intro x hx
    exact less_int_pivot.1 (mem_r0 P less (low, high) l hx)
  · intro x hx
    have := mem_r1 P less (low, high) l hx
    rw [less_int_rat, decide_eq_true_iff] at this
    exact ⟨(hmid x this.1).1, this.2, (hmid x this.1).2⟩
  · intro x hx
    have := mem_eq P less (low, high) l hx
    rw [less_int_rat, less_rat_int, decide_eq_false_iff_not, decide_eq_false_iff_not] at this
    exact ⟨(hmid x this.1).1, le_antisymm (not_lt.1 this.2.2) (not_lt.1 this.2.1),
      (hmid x this.1).2⟩
  · intro x hx
    have := mem_r2 P less (low, high) l hx
    rw [less_int_rat, less_rat_int, decide_eq_true_iff] at this
    exact ⟨(hmid x this.1).1, this.2.2, (hmid x this.1).2⟩
  · intro x hx
    have := mem_r3 P less (low, high) l hx
    exact ⟨less_int_pivot_false.1 this.1, less_pivot_int.1 this.2⟩

/-- Five sorted blocks separated by thresholds concatenate to a sorted list. -/
theorem sorted_five {s0 s1 e s2 s3 : List Int} {lo hi ref : ℚ}
    (o0 : s0.Sorted (· ≤ ·)) (o1 : s1.Sorted (· ≤ ·)) (o2 : s2.Sorted (· ≤ ·))
    (o3 : s3.Sorted (· ≤ ·))
    (h0 : ∀ x ∈ s0, (x : ℚ) < lo)
    (h1 : ∀ x ∈ s1, lo ≤ (x : ℚ) ∧ (x : ℚ) < ref ∧ (x : ℚ) ≤ hi)
    (he : ∀ x ∈ e, lo ≤ (x : ℚ) ∧ (x : ℚ) = ref ∧ (x : ℚ) ≤ hi)
    (h2 : ∀ x ∈ s2, lo ≤ (x : ℚ) ∧ ref < (x : ℚ) ∧ (x : ℚ) ≤ hi)
    (h3 : ∀ x ∈ s3, lo ≤ (x : ℚ) ∧ hi < (x : ℚ)) :
    (s0 ++ s1 ++ e ++ s2 ++ s3).Sorted (· ≤ ·) := by
  have key : ∀ a b : Int, (a : ℚ) ≤ (b : ℚ) → a ≤ b := fun a b hab => by exact_mod_cast hab
  have oe : e.Sorted (· ≤ ·) := by
    rw [List.Sorted, List.pairwise_iff_forall_sublist]
    intro a b hab
    have ha := (he a (hab.subset (by simp))).2.1
    have hb := (he b (hab.subset (by simp))).2.1
    exact key a b (by rw [ha, hb])
  unfold List.Sorted at *
  rw [List.pairwise_append, List.pairwise_append, List.pairwise_append, List.pairwise_append]
  refine ⟨⟨⟨⟨o0, o1, ?_⟩, oe, ?_⟩, o2, ?_⟩, o3, ?_⟩
  · intro a ha b hb
    have := h0 a ha; have := h1 b hb
    exact key a b (by linarith)
  · intro a ha b hb
    have hb' := he b hb
    rcases List.mem_append.1 ha with ha | ha
    · have := h0 a ha
      exact key a b (by linarith)
    · have := h1 a ha
      exact key a b (by linarith)
  · intro a ha b hb
    have hb' := h2 b hb
    rcases List.mem_append.1 ha with ha | ha
    · rcases List.mem_append.1 ha with ha | ha
      · have := h0 a ha
        exact key a b (by linarith)
      · have := h1 a ha
        exact key a b (by linarith)
    · have := he a ha
      exact key a b (by linarith)
  · intro a ha b hb
    have hb' := h3 b hb
    rcases List.mem_append.1 ha with ha | ha
    · rcases List.mem_append.1 ha with ha | ha
      · rcases List.mem_append.1 ha with ha | ha
        · have := h0 a ha
          exact key a b (by linarith)
        · have := h1 a ha
          exact key a b (by linarith)
      · have := he a ha
        exact key a b (by linarith)
    · have := h2 a ha
      exact key a b (by linarith)

/-- Under the natural order whatever `numeric_quicksort_impl` returns is in
non-decreasing order, for any size argument and any values of the pivots. -/
theorem impl_sorted_of_some (P : Partitioner) :
    ∀ (fuel : Nat) (l : List Int) (size : Nat) (r : List Int),
      numeric_quicksort_impl P less fuel l size = some r → r.Sorted (· ≤ ·) := by
  intro fuel
  induction fuel with
  | zero =>
    intro l size r hr
    by_cases hsmall : size < 32
    · rw [impl_small P less 0 l size hsmall] at hr
      obtain rfl := Option.some.inj hr
      exact insertion_sort_less_sorted l
    · rw [impl_zero P less l size hsmall] at hr
      exact absurd hr (by simp)
  | succ fuel ih =>
    intro l size r hr
    by_cases hsmall : size < 32
    · rw [impl_small P less _ l size hsmall] at hr
      obtain rfl := Option.some.inj hr
      exact insertion_sort_less_sorted l
    · rw [impl_succ P less fuel l size hsmall] at hr
      obtain ⟨g, hg, hr⟩ := Option.bind_eq_some.1 hr
      obtain ⟨s0, e0, hr⟩ := Option.bind_eq_some.1 hr
      obtain ⟨s3, e3, hr⟩ := Option.bind_eq_some.1 hr
      obtain ⟨s1, e1, hr⟩ := Option.bind_eq_some.1 hr
      obtain ⟨s2, e2, hr⟩ := Option.bind_eq_some.1 hr
      obtain rfl := Option.some.inj hr
      obtain ⟨⟨low, high⟩, -, rfl⟩ := partition_ranges_some hg
      obtain ⟨h0, h1, he, h2, h3⟩ := regions_bounds P l low high
      have p0 := impl_perm_of_some P less _ _ _ _ e0
      have p1 := impl_perm_of_some P less _ _ _ _ e1
      have p2 := impl_perm_of_some P less _ _ _ _ e2
      have p3 := impl_perm_of_some P less _ _ _ _ e3
      exact sorted_five (ih _ _ _ e0) (ih _ _ _ e1) (ih _ _ _ e2) (ih _ _ _ e3)
        (fun x hx => h0 x (p0.subset hx)) (fun x hx => h1 x (p1.subset hx)) he
        (fun x hx => h2 x (p2.subset hx)) (fun x hx => h3 x (p3.subset hx))

theorem middle_subperm (P : Partitioner) (compare : XReal → XReal → Bool)
    (pivots : XReal × XReal) (l : List Int) :
    (second_split P compare pivots l).1.Subperm l := by
  have h1 : (second_split P compare pivots l).1.Subperm (first_split P compare pivots l).2 :=
    (List.sublist_append_left _ _).subperm.trans (second_split_perm P compare pivots l).subperm
  exact h1.trans ((List.sublist_append_right _ _).subperm.trans
    (first_split_perm P compare pivots l).subperm)

/-- When no sum of elements overflows and the pivots bracket the computed mean, each
recursed region is strictly shorter than the range. -/
theorem regions_shorter_of (P : Partitioner) (l : List Int) (h : SumFits l) (hl : l ≠ [])
    (low high : XReal) (hlow : low.val ≤ average l l.length)
    (hhigh : average l l.length ≤ high.val) :
    (partition_steps P less (low, high) l).r0.length < l.length ∧
    (partition_steps P less (low, high) l).r1.length < l.length ∧
    (partition_steps P less (low, high) l).r2.length < l.length ∧
    (partition_steps P less (low, high) l).r3.length < l.length := by
  have hperm := partition_steps_perm P less (low, high) l
  have hsub := sublist_five (partition_steps P less (low, high) l).r0
    (partition_steps P less (low, high) l).r1 (partition_steps P less (low, high) l).eq
    (partition_steps P less (low, high) l).r2 (partition_steps P less (low, high) l).r3
  obtain ⟨h0, h1, -, h2, h3⟩ := regions_bounds P l low high
  have hpos : 0 < l.length := List.length_pos.2 hl
  have hM := h.of_subperm (middle_subperm P less (low, high) l)
  refine ⟨?_, ?_, ?_, ?_⟩
  · obtain ⟨x, hx, hxm⟩ := exists_average_le l h hl
    refine length_lt_of_not_mem hperm hsub.1 hx fun hx0 => ?_
    have := h0 x hx0
    linarith
  · by_cases hB : (second_split P less (low, high) l).1 = []
    · have : (partition_steps P less (low, high) l).r1 = [] := by
        apply List.eq_nil_iff_forall_not_mem.2
        intro x hx
        have := (mem_r1 P less (low, high) l hx).1
        rw [hB] at this
        exact absurd this (List.not_mem_nil x)
      rw [this]
      exact hpos
    · obtain ⟨x, hx, hxm⟩ := exists_average_le _ hM hB
      refine length_lt_of_not_mem hperm hsub.2.1 (middle_subset P less (low, high) l x hx)
        fun hx1 => ?_
      have := (h1 x hx1).2.1
      rw [new_pivot] at this
      linarith
  · by_cases hB : (second_split P less (low, high) l).1 = []
    · have : (partition_steps P less (low, high) l).r2 = [] := by
        apply List.eq_nil_iff_forall_not_mem.2
        intro x hx
        have := (mem_r2 P less (low, high) l hx).1
        rw [hB] at this
        exact absurd this (List.not_mem_nil x)
      rw [this]
      exact hpos
    · obtain ⟨x, hx, hxm⟩ := exists_le_average _ hM hB
      refine length_lt_of_not_mem hperm hsub.2.2.1 (middle_subset P less (low, high) l x hx)
        fun hx2 => ?_
      have := (h2 x hx2).2.1
      rw [new_pivot] at this
      linarith
  · obtain ⟨x, hx, hxm⟩ := exists_le_average l h hl
    refine length_lt_of_not_mem hperm hsub.2.2.2 hx fun hx3 => ?_
    have := (h3 x hx3).2
    linarith

/-- When no sum of elements overflows, each recursed region is strictly shorter than
the range. -/
theorem regions_shorter (P : Partitioner) (l : List Int) (h : SumFits l) (hl : l ≠ []) :
    ∃ g, partition_ranges P less l l.length = some g ∧ g.range.Perm l ∧
      g.r0.length < l.length ∧ g.r1.length < l.length ∧
      g.r2.length < l.length ∧ g.r3.length < l.length := by
  have hn : l.length ≠ 0 := by simpa using hl
  obtain ⟨hlow, hhigh⟩ := pivots_bracket_average l l.length
  exact ⟨_, partition_ranges_eq P less l l.length hn, partition_steps_perm P less _ l,
    regions_shorter_of P l h hl ⟨_⟩ ⟨_⟩ hlow hhigh⟩

/-- Under the natural order, on a range in which no sum of elements overflows,
`numeric_quicksort_impl` returns a sorted permutation of the range once the fuel covers
the depth. -/
theorem impl_less_total (P : Partitioner) :
    ∀ (fuel : Nat) (l : List Int), SumFits l → l.length ≤ fuel + 31 →
      ∃ r, numeric_quicksort_impl P less fuel l l.length = some r ∧ r.Perm l ∧
        r.Sorted (· ≤ ·) := by
  have key : ∀ (fuel : Nat) (l : List Int), SumFits l → l.length ≤ fuel + 31 →
      ∃ r, numeric_quicksort_impl P less fuel l l.length = some r := by
    intro fuel
    induction fuel with
    | zero =>
      intro l _ hlen
      exact ⟨_, impl_small P less 0 l l.length (by omega)⟩
    | succ fuel ih =>
      intro l h hlen
      by_cases hsmall : l.length < 32
      · exact ⟨_, impl_small P less _ l l.length hsmall⟩
      · have hl : l ≠ [] := by
          intro h0; rw [h0] at hsmall; simp at hsmall
        obtain ⟨g, hg, hperm, n0, n1, n2, n3⟩ := regions_shorter P l h hl
        have hsub := sublist_five g.r0 g.r1 g.eq g.r2 g.r3
        have hr : ∀ r : List Int, r.Sublist g.range → SumFits r :=
          fun r hr => h.of_subperm (hr.subperm.trans hperm.subperm)
        obtain ⟨s0, e0⟩ := ih g.r0 (hr _ hsub.1) (by omega)
        obtain ⟨s1, e1⟩ := ih g.r1 (hr _ hsub.2.1) (by omega)
        obtain ⟨s2, e2⟩ := ih g.r2 (hr _ hsub.2.2.1) (by omega)
        obtain ⟨s3, e3⟩ := ih g.r3 (hr _ hsub.2.2.2) (by omega)
        refine ⟨s0 ++ s1 ++ g.eq ++ s2 ++ s3, ?_⟩
        rw [impl_succ P less fuel l l.length hsmall, hg]
        simp [e0, e1, e2, e3]
  intro fuel l h hlen
  obtain ⟨r, hr⟩ := key fuel l h hlen
  exact ⟨r, hr, impl_perm_of_some P less fuel l l.length r hr,
    impl_sorted_of_some P fuel l l.length r hr⟩

/-! ## Ranges on which the recursion does not shrink -/

section Constant

variable (P : Partitioner) (l : List Int) (low high : XReal) (n : Nat) (v : Int)

theorem middle_eq_replicate
    (hM : l.filter (fun x => !less (XReal.ofInt x) low && !less high (XReal.ofInt x))
      = List.replicate n v) :
    (second_split P less (low, high) l).1 = List.replicate n v :=
  List.perm_replicate.1 ((middle_perm_filter P less (low, high) l).trans (List.Perm.of_eq hM))

theorem new_pivot_of_middle
    (hM : l.filter (fun x => !less (XReal.ofInt x) low && !less high (XReal.ofInt x))
      = List.replicate n v) :
    new_pivot P less (low, high) l = average (List.replicate n v) n := by
  rw [new_pivot, middle_eq_replicate P l low high n v hM, List.length_replicate]

/-- When the middle region is `n` copies of `v` and `v` is below the refined pivot, the
region `[middle1, middle3)` holds all of them. -/
theorem r1_eq_replicate
    (hM : l.filter (fun x => !less (XReal.ofInt x) low && !less high (XReal.ofInt x))
      = List.replicate n v)
    (href : less (XReal.ofInt v) (XReal.ofRat (average (List.replicate n v) n)) = true) :
    (partition_steps P less (low, high) l).r1 = List.replicate n v := by
  have h := r1_perm_filter P less (low, high) l
  rw [new_pivot_of_middle P l low high n v hM, middle_eq_replicate P l low high n v hM,
    List.filter_eq_self.2 (fun x hx => by rw [List.eq_of_mem_replicate hx]; exact href)] at h
  exact List.perm_replicate.1 h

/-- When the middle region is `n` copies of `v` and `v` is above the refined pivot, the
region `[middle4, middle2)` holds all of them. -/
theorem r2_eq_replicate
    (hM : l.filter (fun x => !less (XReal.ofInt x) low && !less high (XReal.ofInt x))
      = List.replicate n v)
    (href : less (XReal.ofRat (average (List.replicate n v) n)) (XReal.ofInt v) = true) :
    (partition_steps P less (low, high) l).r2 = List.replicate n v := by
  have h := r2_perm_filter P less (low, high) l
  have hnot : less (XReal.ofInt v) (XReal.ofRat (average (List.replicate n v) n)) = false := by
    simp only [less, XReal.lt, XReal.ofInt, XReal.ofRat, decide_eq_true_iff,
      decide_eq_false_iff_not, not_lt] at href ⊢
    exact href.le
  rw [new_pivot_of_middle P l low high n v hM, middle_eq_replicate P l low high n v hM,
    List.filter_eq_self.2 (fun x hx => by
      rw [List.eq_of_mem_replicate hx, hnot, href]; rfl)] at h
  exact List.perm_replicate.1 h

end Constant

/-- A call whose region `[middle1, middle3)` has no result has no result. -/
theorem no_result_of_r1 (P : Partitioner) (l : List Int) (size : Nat) (hbig : ¬ size < 32)
    (g : Regions) (hg : partition_ranges P less l size = some g) (fuel : Nat)
    (hdiv : numeric_quicksort_impl P less fuel g.r1 g.r1.length = none) :
    numeric_quicksort_impl P less (fuel + 1) l size = none := by
  rw [impl_succ P less fuel l size hbig, hg, Option.some_bind, hdiv]
  cases numeric_quicksort_impl P less fuel g.r0 g.r0.length <;>
    cases numeric_quicksort_impl P less fuel g.r3 g.r3.length <;> rfl

/-- A call whose region `[middle4, middle2)` has no result has no result. -/
theorem no_result_of_r2 (P : Partitioner) (l : List Int) (size : Nat) (hbig : ¬ size < 32)
    (g : Regions) (hg : partition_ranges P less l size = some g) (fuel : Nat)
    (hdiv : numeric_quicksort_impl P less fuel g.r2 g.r2.length = none) :
    numeric_quicksort_impl P less (fuel + 1) l size = none := by
  rw [impl_succ P less fuel l size hbig, hg, Option.some_bind, hdiv]
  cases numeric_quicksort_impl P less fuel g.r0 g.r0.length <;>
    cases numeric_quicksort_impl P less fuel g.r3 g.r3.length <;>
    cases numeric_quicksort_impl P less fuel g.r1 g.r1.length <;> rfl

/-- A range that is its own region `[middle1, middle3)` is never sorted. -/
theorem no_result_of_self_r1 (P : Partitioner) (l : List Int) (hbig : ¬ l.length < 32)
    (g : Regions) (hg : partition_ranges P less l l.length = some g) (hself : g.r1 = l) :
    ∀ fuel, numeric_quicksort_impl P less fuel l l.length = none := by
  intro fuel
  induction fuel with
  | zero => exact impl_zero P less l l.length hbig
  | succ fuel ih =>
    exact no_result_of_r1 P l l.length hbig g hg fuel (by rw [hself]; exact ih)

/-- A range that is its own region `[middle4, middle2)` is never sorted. -/
theorem no_result_of_self_r2 (P : Partitioner) (l : List Int) (hbig : ¬ l.length < 32)
    (g : Regions) (hg : partition_ranges P less l l.length = some g) (hself : g.r2 = l) :
    ∀ fuel, numeric_quicksort_impl P less fuel l l.length = none := by
  intro fuel
  induction fuel with
  | zero => exact impl_zero P less l l.length hbig
  | succ fuel ih =>
    exact no_result_of_r2 P l l.length hbig g hg fuel (by rw [hself]; exact ih)

/-! ## Evaluation on large values -/

theorem flush_sample_pivots :
    numeric_pivots flush_sample 33
      = some (XReal.ofRat 5000000000000000000, XReal.ofRat 5000000000000000002) := by decide!

theorem flush_sample_average : average flush_sample 33 = 5000000000000000001 := by decide!

theorem flush_sample_regions (P : Partitioner) :
    partition_ranges P less flush_sample 33
      = some (partition_steps P less
          (XReal.ofRat 5000000000000000000, XReal.ofRat 5000000000000000002) flush_sample) ∧
    (partition_steps P less
      (XReal.ofRat 5000000000000000000, XReal.ofRat 5000000000000000002) flush_sample).r1
      = flush_sample := by
  constructor
  · rw [partition_ranges, flush_sample_pivots]
  · exact r1_eq_replicate P flush_sample _ _ 33 5000000000000000000 (by decide!) (by decide!)

theorem flush_sample_no_result (P : Partitioner) (fuel : Nat) :
    numeric_quicksort_impl P less fuel flush_sample 33 = none :=
  no_result_of_self_r1 P flush_sample (by decide) _ (flush_sample_regions P).1
    (flush_sample_regions P).2 fuel

theorem max_sample_32_pivots :
    numeric_pivots max_sample_32 32
      = some (XReal.ofRat 9223372036854775807, XReal.ofRat 9223372036854775808) := by decide!

theorem max_sample_32_regions (P : Partitioner) :
    partition_ranges P less max_sample_32 32
      = some (partition_steps P less
          (XReal.ofRat 9223372036854775807, XReal.ofRat 9223372036854775808) max_sample_32) ∧
    (partition_steps P less
      (XReal.ofRat 9223372036854775807, XReal.ofRat 9223372036854775808) max_sample_32).r1
      = max_sample_32 := by
  constructor
  · rw [partition_ranges, max_sample_32_pivots]
  · exact r1_eq_replicate P max_sample_32 _ _ 32 9223372036854775807 (by decide!) (by decide!)

theorem max_sample_32_no_result (P : Partitioner) (fuel : Nat) :
    numeric_quicksort_impl P less fuel max_sample_32 32 = none :=
  no_result_of_self_r1 P max_sample_32 (by decide) _ (max_sample_32_regions P).1
    (max_sample_32_regions P).2 fuel

theorem max_sample_40_pivots :
    numeric_pivots max_sample_40 40
      = some (XReal.ofRat 9223372036854775801, XReal.ofRat 9223372036854775807) := by decide!

theorem max_sample_40_regions (P : Partitioner) :
    partition_ranges P less max_sample_40 40
      = some (partition_steps P less
          (XReal.ofRat 9223372036854775801, XReal.ofRat 9223372036854775807) max_sample_40) ∧
    (partition_steps P less
      (XReal.ofRat 9223372036854775801, XReal.ofRat 9223372036854775807) max_sample_40).r2
      = max_sample_40 := by
  constructor
  · rw [partition_ranges, max_sample_40_pivots]
  · exact r2_eq_replicate P max_sample_40 _ _ 40 9223372036854775807 (by decide!) (by decide!)

theorem max_sample_40_no_result (P : Partitioner) (fuel : Nat) :
    numeric_quicksort_impl P less fuel max_sample_40 40 = none :=
  no_result_of_self_r2 P max_sample_40 (by decide) _ (max_sample_40_regions P).1
    (max_sample_40_regions P).2 fuel

theorem unsorted_max_sample_regions (P : Partitioner) :
    partition_ranges P less unsorted_max_sample 33
      = some (partition_steps P less
          (XReal.ofRat (14725614174425557387 / 2), XReal.ofRat 10524944741838907714)
          unsorted_max_sample) ∧
    (partition_steps P less
      (XReal.ofRat (14725614174425557387 / 2), XReal.ofRat 10524944741838907714)
      unsorted_max_sample).r1 = max_sample_32 := by
  constructor
  · have hp : numeric_pivots unsorted_max_sample 33
        = some (XReal.ofRat (14725614174425557387 / 2), XReal.ofRat 10524944741838907714) := by
      decide!
    rw [partition_ranges, hp]
  · exact r1_eq_replicate P unsorted_max_sample _ _ 32 9223372036854775807 (by decide!)
      (by decide!)

theorem unsorted_max_sample_no_result (P : Partitioner) (fuel : Nat) :
    numeric_quicksort_impl P less fuel unsorted_max_sample 33 = none := by
  cases fuel with
  | zero => exact impl_zero P less _ 33 (by decide)
  | succ fuel =>
    refine no_result_of_r1 P unsorted_max_sample 33 (by decide) _
      (unsorted_max_sample_regions P).1 fuel ?_
    rw [(unsorted_max_sample_regions P).2]
    exact max_sample_32_no_result P fuel

theorem sorted_max_sample_regions (P : Partitioner) :
    partition_ranges P less sorted_max_sample 33
      = some (partition_steps P less
          (XReal.ofRat 7362807087212778693, XReal.ofRat 10524944741838907715)
          sorted_max_sample) ∧
    (partition_steps P less
      (XReal.ofRat 7362807087212778693, XReal.ofRat 10524944741838907715)
      sorted_max_sample).r1 = max_sample_32 := by
  constructor
  · have hp : numeric_pivots sorted_max_sample 33
        = some (XReal.ofRat 7362807087212778693, XReal.ofRat 10524944741838907715) := by
      decide!
    rw [partition_ranges, hp]
  · exact r1_eq_replicate P sorted_max_sample _ _ 32 9223372036854775807 (by decide!)
      (by decide!)

theorem sorted_max_sample_no_result (P : Partitioner) (fuel : Nat) :
    numeric_quicksort_impl P less fuel sorted_max_sample 33 = none := by
  cases fuel with
  | zero => exact impl_zero P less _ 33 (by decide)
  | succ fuel =>
    refine no_result_of_r1 P sorted_max_sample 33 (by decide) _
      (sorted_max_sample_regions P).1 fuel ?_
    rw [(sorted_max_sample_regions P).2]
    exact max_sample_32_no_result P fuel

/-! ## Sorting under the natural order -/

/-- Whatever `numeric_quicksort` returns under the natural order is the output of the
reference sort: both are the sorted permutation of the range. -/
theorem returned_eq_reference (P : Partitioner) (fuel : Nat) (l r : List Int)
    (h : numeric_quicksort P less fuel l = some r) : r = reference_sort l :=
  List.eq_of_perm_of_sorted
    ((impl_perm_of_some P less fuel l l.length r h).trans (List.perm_insertionSort _ l).symm)
    (impl_sorted_of_some P fuel l l.length r h) (List.sorted_insertionSort _ l)

/-- C1 (evaluation of the code): whatever `numeric_quicksort` returns under the natural
order is in non-decreasing order, and it returns when the magnitudes of the elements sum
to at most `2^63 - 1`; but on thirty-two copies of the largest 64-bit integer followed by
0 it returns nothing: the second level is called on the thirty-two copies, whose flushed
mean is rounded to `2^63 - 1/2`, above every element, so that `[middle1, middle3)` is
that range again, for ever. -/
theorem no_sorted_result_after_flush (P : Partitioner) :
    InRange unsorted_max_sample ∧
    (∀ fuel (l r : List Int), numeric_quicksort P less fuel l = some r → r.Sorted (· ≤ ·)) ∧
    (∀ fuel (l : List Int), SumFits l → l.length ≤ fuel + 31 →
      ∃ r, numeric_quicksort P less fuel l = some r ∧ r.Sorted (· ≤ ·)) ∧
    (∃ g, partition_ranges P less unsorted_max_sample unsorted_max_sample.length = some g ∧
      g.r1 = max_sample_32) ∧
    average max_sample_32 32 = 9223372036854775807 + 1 / 2 ∧
    (∀ fuel, numeric_quicksort_impl P less fuel max_sample_32 32 = none) ∧
    ∀ fuel, numeric_quicksort P less fuel unsorted_max_sample = none :=
  ⟨by decide, fun fuel l r h => impl_sorted_of_some P fuel l l.length r h,
    fun fuel l hfits hfuel =>
      (impl_less_total P fuel l hfits hfuel).imp fun _ hr => ⟨hr.1, hr.2.2⟩,
    ⟨_, (unsorted_max_sample_regions P).1, (unsorted_max_sample_regions P).2⟩, by decide!,
    max_sample_32_no_result P, unsorted_max_sample_no_result P⟩

/-- C3 (evaluation of the code): when the magnitudes of the elements sum to at most
`2^63 - 1` each recursed sub-range is strictly smaller than the range. But on thirty-three
copies of `5000000000000000000` the mean returned after the flushes is
`5000000000000000001`, above every element; all elements lie in `[low, high]` and below
the refined pivot, so `[middle1, middle3)` has the 33 elements of the range, not fewer,
and `numeric_quicksort_impl` has no result. -/
theorem recursed_region_not_smaller (P : Partitioner) :
    InRange flush_sample ∧ 32 ≤ flush_sample.length ∧
    (∀ l : List Int, SumFits l → l ≠ [] →
      ∃ g, partition_ranges P less l l.length = some g ∧
        g.r0.length < l.length ∧ g.r1.length < l.length ∧
        g.r2.length < l.length ∧ g.r3.length < l.length) ∧
    average flush_sample flush_sample.length = 5000000000000000001 ∧
    (∃ g, partition_ranges P less flush_sample flush_sample.length = some g ∧
      g.r1 = flush_sample ∧ ¬ g.r1.length < flush_sample.length) ∧
    ∀ fuel, numeric_quicksort_impl P less fuel flush_sample flush_sample.length = none :=
  ⟨by decide, by decide,
    fun l hfits hl => (regions_shorter P l hfits hl).imp fun _ hg => ⟨hg.1, hg.2.2⟩,
    flush_sample_average,
    ⟨_, (flush_sample_regions P).1, (flush_sample_regions P).2, by
      rw [(flush_sample_regions P).2]; exact lt_irrefl _⟩,
    flush_sample_no_result P⟩

/-! ## The descending comparator -/

theorem sum_sq_dev_int (a : Int) (l : List Int) (acc : Int) (h0 : 0 ≤ acc)
    (h : acc + (l.map fun x : Int => (x - a) ^ 2).sum ≤ 2 ^ 64) :
    sum_sq_dev (a : ℚ) l (acc : ℚ)
      = ((acc + (l.map fun x : Int => (x - a) ^ 2).sum : Int) : ℚ) := by
  induction l generalizing acc with
  | nil => simp [sum_sq_dev]
  | cons x rest ih =>
    simp only [List.map_cons, List.sum_cons] at h ⊢
    have hrest : 0 ≤ (rest.map fun x : Int => (x - a) ^ 2).sum := by
      apply List.sum_nonneg
      intro y hy
      obtain ⟨z, _, rfl⟩ := List.mem_map.1 hy
      positivity
    have hsq : 0 ≤ (x - a) ^ 2 := by positivity
    have habs : |x - a| ≤ 2 ^ 64 := by
      have h1 : (x - a) ^ 2 ≤ 2 ^ 64 := by linarith
      have h2 : |x - a| ≤ (x - a) ^ 2 := by
        rw [Int.abs_eq_natAbs]
        exact Int.natAbs_le_self_sq _
      linarith
    have e1 : ((x : ℚ) - (a : ℚ)) = ((x - a : Int) : ℚ) := by push_cast; ring
    have e2 : ((x - a : Int) : ℚ) * ((x - a : Int) : ℚ) = (((x - a) ^ 2 : Int) : ℚ) := by
      push_cast; ring
    have e3 : (acc : ℚ) + (((x - a) ^ 2 : Int) : ℚ) = ((acc + (x - a) ^ 2 : Int) : ℚ) := by
      push_cast; ring
    rw [sum_sq_dev, e1, ld_round_intCast _ habs, e2,
      ld_round_intCast _ (by rw [abs_of_nonneg hsq]; linarith), e3,
      ld_round_intCast _ (by rw [abs_of_nonneg (by linarith)]; linarith),
      ih _ (by linarith) (by linarith)]
    congr 1
    ring

theorem descending_trap_fits : SumFits descending_trap := by decide

theorem average_of_perm_trap {l : List Int} (hp : l.Perm descending_trap) :
    average l 32 = 1 := by
  rw [average_no_flush l 32 (by norm_num) (descending_trap_fits.of_subperm hp.subperm).no_flush,
    hp.sum_eq]
  have : (((descending_trap.sum : Int) : ℚ) / ((32 : Nat) : ℚ)) = ((1 : Int) : ℚ) := by
    norm_num [descending_trap]
  rw [this, ld_round_intCast 1 (by norm_num)]
  norm_num

theorem sum_sq_dev_of_perm_trap {l : List Int} (hp : l.Perm descending_trap) :
    sum_sq_dev 1 l 0 = 992 := by
  have hsum : (l.map fun x : Int => (x - 1) ^ 2).sum = 992 := by
    rw [(hp.map _).sum_eq]; decide
  have := sum_sq_dev_int 1 l 0 (le_refl 0) (by rw [hsum]; norm_num)
  rw [hsum] at this
  simpa using this

theorem descending_trap_mem {x : Int} (hx : x ∈ descending_trap) : x = 0 ∨ x = 32 := by
  unfold descending_trap at hx
  rcases List.mem_append.1 hx with h | h
  · exact Or.inl (List.eq_of_mem_replicate h)
  · exact Or.inr (by simpa using h)

/-- On a permutation of the trap every element compares "greater" than the low pivot, so
the first partition step keeps the whole range in `[first, middle1)`. -/
theorem trap_first_region (P : Partitioner) {l : List Int} (hp : l.Perm descending_trap) :
    ∃ g, partition_ranges P greater l 32 = some g ∧ g.r0.Perm descending_trap := by
  refine ⟨_, partition_ranges_eq P greater l 32 (by norm_num), ?_⟩
  rw [std_deviation, average_of_perm_trap hp, sum_sq_dev_of_perm_trap hp]
  refine (P.fst_perm _ l ?_).trans hp
  intro x hx
  rcases descending_trap_mem (hp.subset hx) with rfl | rfl
  · decide!
  · decide!

theorem trap_diverges (P : Partitioner) :
    ∀ (fuel : Nat) (l : List Int), l.Perm descending_trap →
      numeric_quicksort_impl P greater fuel l 32 = none := by
  intro fuel
  induction fuel with
  | zero => intro l _; exact impl_zero P greater l 32 (by norm_num)
  | succ fuel ih =>
    intro l hp
    obtain ⟨g, hg, hg0⟩ := trap_first_region P hp
    have hlen : g.r0.length = 32 := by
      rw [hg0.length_eq]; rfl
    rw [impl_succ P greater fuel l 32 (by norm_num), hg, Option.some_bind, hlen, ih g.r0 hg0]
    rfl

/-- C4 (evaluation of the code): with the descending comparator `numeric_quicksort`
sorts `[3,1,2]` into `[3,2,1]`, but on the 32-element range of thirty-one zeros and one
32 the region `[first, middle1)` handed to the first recursive call is the whole range
again, and no amount of fuel yields a result. -/
theorem greater_no_result_on_trap (P : Partitioner) :
    (∀ fuel, numeric_quicksort P greater fuel [3, 1, 2] = some [3, 2, 1]) ∧
    (∃ g, partition_ranges P greater descending_trap descending_trap.length = some g ∧
      g.r0.length = descending_trap.length) ∧
    ∀ fuel, numeric_quicksort P greater fuel descending_trap = none := by
  refine ⟨?_, ?_, ?_⟩
  · intro fuel
    rw [numeric_quicksort, impl_small P greater fuel _ _ (by decide)]
    simp only [greater_ofInt]
    decide
  · obtain ⟨g, hg, hg0⟩ := trap_first_region P (List.Perm.refl descending_trap)
    exact ⟨g, hg, hg0.length_eq⟩
  · intro fuel
    exact trap_diverges P fuel descending_trap (List.Perm.refl _)

/-- C5 (evaluation of the code): whatever `numeric_quicksort` returns under the natural
order is the output of the reference sort. But on 0 followed by thirty-two copies of the
largest 64-bit integer the reference sort returns the range as it is, while
`numeric_quicksort` returns nothing: its second level is called on the thirty-two copies
and never shrinks them. -/
theorem no_result_where_reference_sorts (P : Partitioner) :
    InRange sorted_max_sample ∧
    (∀ fuel (l r : List Int), numeric_quicksort P less fuel l = some r →
      r = reference_sort l) ∧
    reference_sort sorted_max_sample = sorted_max_sample ∧
    (∃ g, partition_ranges P less sorted_max_sample sorted_max_sample.length = some g ∧
      g.r1 = max_sample_32) ∧
    ∀ fuel, numeric_quicksort P less fuel sorted_max_sample = none ∧
      numeric_quicksort P less fuel sorted_max_sample ≠ some (reference_sort sorted_max_sample) := by
  refine ⟨by decide, fun fuel l r h => returned_eq_reference P fuel l r h, by decide,
    ⟨_, (sorted_max_sample_regions P).1, (sorted_max_sample_regions P).2⟩, fun fuel => ?_⟩
  have h : numeric_quicksort P less fuel sorted_max_sample = none :=
    sorted_max_sample_no_result P fuel
  exact ⟨h, by rw [h]; exact Option.noConfusion⟩

/-- C6 (evaluation of the code): when `numeric_quicksort` returns on a non-decreasing
range, it returns that range. But thirty-two copies of the largest 64-bit integer are in
non-decreasing order, and `numeric_quicksort` does not return them: the pivots are
`2^63 - 1` and `2^63`, the refined pivot `2^63 - 1/2`, and `[middle1, middle3)` is the
whole range at every level. -/
theorem sorted_range_not_returned (P : Partitioner) :
    InRange max_sample_32 ∧ max_sample_32.Sorted (· ≤ ·) ∧
    (∀ fuel (l r : List Int), l.Sorted (· ≤ ·) → numeric_quicksort P less fuel l = some r →
      r = l) ∧
    numeric_pivots max_sample_32 max_sample_32.length
      = some (XReal.ofRat 9223372036854775807, XReal.ofRat 9223372036854775808) ∧
    new_pivot P less (XReal.ofRat 9223372036854775807, XReal.ofRat 9223372036854775808)
      max_sample_32 = 9223372036854775807 + 1 / 2 ∧
    ∀ fuel, numeric_quicksort P less fuel max_sample_32 = none ∧
      numeric_quicksort P less fuel max_sample_32 ≠ some max_sample_32 := by
  refine ⟨by decide, by decide, fun fuel l r hl h => ?_, max_sample_32_pivots, ?_,
    fun fuel => ?_⟩
  · exact List.eq_of_perm_of_sorted (impl_perm_of_some P less fuel l l.length r h)
      (impl_sorted_of_some P fuel l l.length r h) hl
  · rw [new_pivot_of_middle P max_sample_32 _ _ 32 9223372036854775807 (by decide!)]
    decide!
  · have h : numeric_quicksort P less fuel max_sample_32 = none :=
      max_sample_32_no_result P fuel
    exact ⟨h, by rw [h]; exact Option.noConfusion⟩

/-- C7 (evaluation of the code): a constant range whose magnitudes sum to at most
`2^63 - 1` is returned as it is. But on forty copies of `v = 2^63 - 1` the flushed mean
is `v - 3`, the squared deviations sum to 360 and the standard deviation is 3, so the
pivots are `v - 6` and `v`, not both `v`; the refined pivot is `v - 3`; every element is
above it, so `[middle4, middle2)` holds the forty elements and no result is returned. -/
theorem constant_range_pivots_differ (P : Partitioner) :
    InRange max_sample_40 ∧
    (∀ (n : Nat) (v : Int) (fuel : Nat), SumFits (List.replicate n v) → n ≤ fuel + 31 →
      numeric_quicksort P less fuel (List.replicate n v) = some (List.replicate n v)) ∧
    average max_sample_40 40 = 9223372036854775804 ∧
    sum_sq_dev (average max_sample_40 40) max_sample_40 0 = 360 ∧
    std_deviation max_sample_40 40 = 3 ∧
    numeric_pivots max_sample_40 40
      = some (XReal.ofRat 9223372036854775801, XReal.ofRat 9223372036854775807) ∧
    new_pivot P less (XReal.ofRat 9223372036854775801, XReal.ofRat 9223372036854775807)
      max_sample_40 = 9223372036854775804 ∧
    (∃ g, partition_ranges P less max_sample_40 40 = some g ∧ g.r2 = max_sample_40) ∧
    ∀ fuel, numeric_quicksort P less fuel max_sample_40 = none := by
  refine ⟨by decide, fun n v fuel hfits hfuel => ?_, by decide!, by decide!, by decide!,
    max_sample_40_pivots, ?_,
    ⟨_, (max_sample_40_regions P).1, (max_sample_40_regions P).2⟩,
    max_sample_40_no_result P⟩
  · obtain ⟨r, hr, hp, -⟩ := impl_less_total P fuel (List.replicate n v) hfits
      (by rw [List.length_replicate]; exact hfuel)
    rw [numeric_quicksort, hr, List.perm_replicate.1 hp]
  · rw [new_pivot_of_middle P max_sample_40 _ _ 40 9223372036854775807 (by decide!)]
    decide!

/-- C8: a range of fewer than 32 elements is sorted by `insertion_sort` alone, with the
same comparator, whatever the fuel and the partition routine (no pivot is involved);
the empty and the one-element range come back unchanged; a range of exactly 32
elements goes through the pivots and the four partitions instead. -/
theorem small_range_fallback (P : Partitioner) (compare : XReal → XReal → Bool)
    (l l32 : List Int) (h : l.length < 32) (h32 : l32.length = 32) :
    (∀ fuel, numeric_quicksort P compare fuel l
        = some (insertion_sort (fun a b : Int => compare (XReal.ofInt a) (XReal.ofInt b)) l)) ∧
    (∀ fuel, numeric_quicksort P compare fuel [] = some []) ∧
    (∀ fuel x, numeric_quicksort P compare fuel [x] = some [x]) ∧
    numeric_quicksort P compare 0 l32 = none ∧
    ∀ fuel, numeric_quicksort P compare (fuel + 1) l32
      = (partition_ranges P compare l32 32).bind fun g =>
          (numeric_quicksort_impl P compare fuel g.r0 g.r0.length).bind fun s0 =>
          (numeric_quicksort_impl P compare fuel g.r3 g.r3.length).bind fun s3 =>
          (numeric_quicksort_impl P compare fuel g.r1 g.r1.length).bind fun s1 =>
          (numeric_quicksort_impl P compare fuel g.r2 g.r2.length).bind fun s2 =>
            some (s0 ++ s1 ++ g.eq ++ s2 ++ s3) := by
  refine ⟨fun fuel => impl_small P compare fuel l l.length h, ?_, ?_, ?_, ?_⟩
  · intro fuel
    exact impl_small P compare fuel [] 0 (by decide)
  · intro fuel x
    exact impl_small P compare fuel [x] 1 (by decide)
  · rw [numeric_quicksort, h32]
    exact impl_zero P compare l32 32 (by decide)
  · intro fuel
    rw [numeric_quicksort, h32]
    exact impl_succ P compare fuel l32 32 (by decide)

theorem small_range_fallback_witness :
    (List.replicate 31 (5 : Int)).length < 32 ∧ descending_trap.length = 32 ∧
    ((∀ fuel, numeric_quicksort filterPartition greater fuel (List.replicate 31 5)
        = some (insertion_sort (fun a b : Int => greater (XReal.ofInt a) (XReal.ofInt b))
            (List.replicate 31 5))) ∧
    (∀ fuel, numeric_quicksort filterPartition greater fuel [] = some []) ∧
    (∀ fuel x, numeric_quicksort filterPartition greater fuel [x] = some [x]) ∧
    numeric_quicksort filterPartition greater 0 descending_trap = none ∧
    ∀ fuel, numeric_quicksort filterPartition greater (fuel + 1) descending_trap
      = (partition_ranges filterPartition greater descending_trap 32).bind fun g =>
          (numeric_quicksort_impl filterPartition greater fuel g.r0 g.r0.length).bind fun s0 =>
          (numeric_quicksort_impl filterPartition greater fuel g.r3 g.r3.length).bind fun s3 =>
          (numeric_quicksort_impl filterPartition greater fuel g.r1 g.r1.length).bind fun s1 =>
          (numeric_quicksort_impl filterPartition greater fuel g.r2 g.r2.length).bind fun s2 =>
            some (s0 ++ s1 ++ g.eq ++ s2 ++ s3)) :=
  ⟨by decide, by decide,
    small_range_fallback filterPartition greater (List.replicate 31 5) descending_trap
      (by decide) (by decide)⟩

/-- C9 (as stated, refuted): on the range 1, 1, 2 with size 3 no flush happens and
`average` returns the `long double` nearest to 4/3, which is not 4/3. -/
theorem average_not_exact_mean :
    InRange [1, 1, 2] ∧ ([1, 1, 2] : List Int).length = 3 ∧
    average [1, 1, 2] 3 = 12297829382473034411 / 9223372036854775808 ∧
    average [1, 1, 2] 3 ≠ ((([1, 1, 2] : List Int).sum : Int) : ℚ) / ((3 : Nat) : ℚ) := by
  refine ⟨by decide, by decide, by decide!, by decide!⟩

theorem average_loop_chunks (size : Nat) (l : List Int) (accumulator : Int) (res : ℚ) :
    average.loop size l accumulator res
      = (average.chunks l accumulator).foldl
          (fun (res : ℚ) (a : Int) => ld_round (res + ld_round ((a : ℚ) / (size : ℚ)))) res := by
  induction l generalizing accumulator res with
  | nil => rfl
  | cons x rest ih =>
    rw [average.loop, average.chunks]
    split
    · rw [ih, List.foldl_cons]
    · rw [ih]

theorem chunks_sum (l : List Int) (h : InRange l) (accumulator : Int) :
    (average.chunks l accumulator).sum = accumulator + l.sum := by
  induction l generalizing accumulator with
  | nil => simp [average.chunks]
  | cons x rest ih =>
    rw [average.chunks]
    split
    · rw [List.sum_cons, ih h.cons.2, wrap64_of_inRange x h.cons.1, List.sum_cons]
    · rw [ih h.cons.2, List.sum_cons]; ring

/-- C9 (amended): on a range of signed 64-bit integers `average` divides by `size` the
accumulators it flushes and the final one, which add up exactly to the sum of the
elements, rounds each quotient and each addition to `long double`, and returns the
result, a `long double`; without a flush this is the sum of the elements divided by
`size`, rounded once: no `long double` is nearer to the mean; with `size` zero it
returns 0. -/
theorem average_rounded (l : List Int) (h : InRange l) (size : Nat) :
    (size ≠ 0 → average l size
      = (average.chunks l 0).foldl
          (fun (res : ℚ) (a : Int) => ld_round (res + ld_round ((a : ℚ) / (size : ℚ)))) 0) ∧
    (average.chunks l 0).sum = l.sum ∧
    Representable (average l size) ∧
    (size ≠ 0 → average.no_flush l 0 = true →
      average l size = ld_round (((l.sum : Int) : ℚ) / (size : ℚ))) ∧
    (size ≠ 0 → average.no_flush l 0 = true → ∀ y : ℚ, Representable y →
      |((l.sum : Int) : ℚ) / (size : ℚ) - average l size|
        ≤ |((l.sum : Int) : ℚ) / (size : ℚ) - y|) ∧
    average l 0 = 0 := by
  refine ⟨fun hs => ?_, ?_, average_representable l size,
    fun hs hnf => average_no_flush l size hs hnf, fun hs hnf y hy => ?_, average_size_zero l⟩
  · rw [average, if_neg hs, average_loop_chunks]
  · rw [chunks_sum l h 0, zero_add]
  · rw [average_no_flush l size hs hnf]
    exact ld_round_nearest _ hy

theorem average_rounded_witness :
    InRange sample34 ∧
    ((34 ≠ 0 → average sample34 34
      = (average.chunks sample34 0).foldl
          (fun (res : ℚ) (a : Int) => ld_round (res + ld_round ((a : ℚ) / ((34 : Nat) : ℚ)))) 0) ∧
    (average.chunks sample34 0).sum = sample34.sum ∧
    Representable (average sample34 34) ∧
    (34 ≠ 0 → average.no_flush sample34 0 = true →
      average sample34 34 = ld_round (((sample34.sum : Int) : ℚ) / ((34 : Nat) : ℚ))) ∧
    (34 ≠ 0 → average.no_flush sample34 0 = true → ∀ y : ℚ, Representable y →
      |((sample34.sum : Int) : ℚ) / ((34 : Nat) : ℚ) - average sample34 34|
        ≤ |((sample34.sum : Int) : ℚ) / ((34 : Nat) : ℚ) - y|) ∧
    average sample34 0 = 0) :=
  ⟨by decide, average_rounded sample34 (by decide) 34⟩

theorem StrictWeakOrder.asymm {α : Type} {compare : α → α → Bool}
    (h : StrictWeakOrder compare) (a b : α) (hab : compare a b = true) :
    compare b a = false := by
  by_contra hba
  have hba : compare b a = true := by simpa using hba
  have := h.trans a b a hab hba
  rw [h.irrefl a] at this
  exact absurd this (by simp)

theorem StrictWeakOrder.negtrans {α : Type} {compare : α → α → Bool}
    (h : StrictWeakOrder compare) (a b c : α) (hab : compare a b = false)
    (hbc : compare b c = false) : compare a c = false := by
  by_contra hac
  have hac : compare a c = true := by simpa using hac
  have hba : compare b a = false := by
    by_contra hba
    have hba : compare b a = true := by simpa using hba
    have := h.trans b a c hba hac
    rw [hbc] at this
    exact absurd this (by simp)
  have hcb : compare c b = false := by
    by_contra hcb
    have hcb : compare c b = true := by simpa using hcb
    have := h.trans a c b hac hcb
    rw [hab] at this
    exact absurd this (by simp)
  have := (h.incomp_trans a b c hab hba hbc hcb).1
  rw [hac] at this
  exact absurd this (by simp)

theorem int_lt_strictWeakOrder : StrictWeakOrder (fun a b : Int => decide (a < b)) where
  irrefl a := by simp
  trans a b c := by
    simp only [decide_eq_true_iff]
    omega
  incomp_trans a b c := by
    simp only [decide_eq_false_iff_not]
    omega

/-- C11: for every element type and every comparator that is a strict weak ordering,
`insertion_sort` returns a permutation of its input in which no element compares less
than its predecessor (nor than any earlier element); the empty range is returned
unchanged. -/
theorem insertion_sort_correct {α : Type} (compare : α → α → Bool)
    (h : StrictWeakOrder compare) (l : List α) :
    (insertion_sort compare l).Perm l ∧
    (insertion_sort compare l).Chain' (fun a b => compare b a = false) ∧
    (insertion_sort compare l).Pairwise (fun a b => compare b a = false) ∧
    insertion_sort compare ([] : List α) = [] := by
  have hp := insertion_sort_pairwise compare h.asymm h.negtrans l
  exact ⟨insertion_sort_perm compare l, List.Pairwise.chain' hp, hp, rfl⟩

theorem insertion_sort_correct_witness :
    StrictWeakOrder (fun a b : Int => decide (a < b)) ∧
    ((insertion_sort (fun a b : Int => decide (a < b)) [3, 1, 2, 1]).Perm [3, 1, 2, 1] ∧
    (insertion_sort (fun a b : Int => decide (a < b)) [3, 1, 2, 1]).Chain'
      (fun a b => decide (b < a) = false) ∧
    (insertion_sort (fun a b : Int => decide (a < b)) [3, 1, 2, 1]).Pairwise
      (fun a b => decide (b < a) = false) ∧
    insertion_sort (fun a b : Int => decide (a < b)) ([] : List Int) = []) :=
  ⟨int_lt_strictWeakOrder,
    insertion_sort_correct (fun a b : Int => decide (a < b)) int_lt_strictWeakOrder [3, 1, 2, 1]⟩

/-! ## Stability of the fallback sorter -/

theorem sift_filter_equivalent {α : Type} (compare : α → α → Bool)
    (h : StrictWeakOrder compare) (z tmp : α) (before : List α) :
    (insertion_sort.sift compare tmp before).filter (equivalent compare z)
      = (tmp :: before).filter (equivalent compare z) := by
  induction before with
  | nil => rfl
  | cons p before ih =>
    rw [insertion_sort.sift]
    split
    · rename_i hlt
      by_cases hp : equivalent compare z p = true
      · have ht : equivalent compare z tmp = false := by
          by_contra ht
          have ht : equivalent compare z tmp = true := by simpa using ht
          simp only [equivalent, Bool.and_eq_true, Bool.not_eq_true'] at hp ht
          have := h.negtrans tmp z p ht.2 hp.1
          rw [hlt] at this
          exact absurd this (by simp)
        rw [List.filter_cons_of_pos hp, ih, List.filter_cons_of_neg (by simp [ht]),
          List.filter_cons_of_neg (by simp [ht]), List.filter_cons_of_pos hp]
      · rw [List.filter_cons_of_neg hp, ih]
        by_cases ht : equivalent compare z tmp = true
        · rw [List.filter_cons_of_pos ht, List.filter_cons_of_pos ht,
            List.filter_cons_of_neg hp]
        · rw [List.filter_cons_of_neg ht, List.filter_cons_of_neg ht,
            List.filter_cons_of_neg hp]
    · rfl

theorem loop_filter_equivalent {α : Type} (compare : α → α → Bool)
    (h : StrictWeakOrder compare) (z : α) (before rest : List α) :
    (insertion_sort.loop compare before rest).filter (equivalent compare z)
      = (before.reverse ++ rest).filter (equivalent compare z) := by
  induction rest generalizing before with
  | nil => simp [insertion_sort.loop]
  | cons x rest ih =>
    rw [insertion_sort.loop, ih, step_eq_sift]
    simp only [List.filter_append, List.filter_reverse]
    rw [sift_filter_equivalent compare h z x before]
    by_cases hx : equivalent compare z x = true
    · rw [List.filter_cons_of_pos hx, List.filter_cons_of_pos hx]
      simp
    · rw [List.filter_cons_of_neg hx, List.filter_cons_of_neg hx]

theorem loop_of_chain {α : Type} (compare : α → α → Bool) (p : α) (before rest : List α)
    (hc : List.Chain (fun a b => compare b a = false) p rest) :
    insertion_sort.loop compare (p :: before) rest = (p :: before).reverse ++ rest := by
  induction rest generalizing p before with
  | nil => simp [insertion_sort.loop]
  | cons x rest ih =>
    rw [List.chain_cons] at hc
    rw [insertion_sort.loop, insertion_sort.step, if_neg (by simp [hc.1]), ih x _ hc.2]
    simp

theorem sift_eq_takeWhile {α : Type} (compare : α → α → Bool) (tmp : α) (before : List α) :
    insertion_sort.sift compare tmp before
      = before.takeWhile (fun p => compare tmp p)
          ++ tmp :: before.dropWhile (fun p => compare tmp p) := by
  induction before with
  | nil => rfl
  | cons p before ih =>
    rw [insertion_sort.sift]
    split
    · rename_i hlt
      rw [List.takeWhile_cons_of_pos hlt, List.dropWhile_cons_of_pos hlt, ih]
      rfl
    · rename_i hge
      rw [List.takeWhile_cons_of_neg hge, List.dropWhile_cons_of_neg hge]
      rfl

theorem fst_lt_strictWeakOrder :
    StrictWeakOrder (fun a b : Int × Nat => decide (a.1 < b.1)) where
  irrefl a := by simp
  trans a b c := by
    simp only [decide_eq_true_iff]
    omega
  incomp_trans a b c := by
    simp only [decide_eq_false_iff_not]
    omega

/-- C17: `insertion_sort` is stable. Under a strict weak ordering the elements equivalent
to any given element come out in the order they came in, because the element being
inserted moves left exactly past the run of predecessors it compares less than; and a
range in which no element compares less than its predecessor is returned unchanged. -/
theorem insertion_sort_stable {α : Type} (compare : α → α → Bool)
    (h : StrictWeakOrder compare) (l : List α) :
    (∀ z, (insertion_sort compare l).filter (equivalent compare z)
        = l.filter (equivalent compare z)) ∧
    (∀ (tmp : α) (before : List α), insertion_sort.sift compare tmp before
        = before.takeWhile (fun p => compare tmp p)
            ++ tmp :: before.dropWhile (fun p => compare tmp p)) ∧
    (l.Chain' (fun a b => compare b a = false) → insertion_sort compare l = l) := by
  refine ⟨?_, sift_eq_takeWhile compare, ?_⟩
  · intro z
    cases l with
    | nil => rfl
    | cons x rest =>
      rw [insertion_sort, loop_filter_equivalent compare h z [x] rest]
      rfl
  · intro hc
    cases l with
    | nil => rfl
    | cons x rest =>
      rw [insertion_sort, loop_of_chain compare x [] rest hc]
      rfl

theorem insertion_sort_stable_witness :
    StrictWeakOrder (fun a b : Int × Nat => decide (a.1 < b.1)) ∧
    ((∀ z, (insertion_sort (fun a b : Int × Nat => decide (a.1 < b.1))
          [(2, 0), (1, 1), (2, 2), (1, 3)]).filter
            (equivalent (fun a b : Int × Nat => decide (a.1 < b.1)) z)
        = [(2, 0), (1, 1), (2, 2), (1, 3)].filter
            (equivalent (fun a b : Int × Nat => decide (a.1 < b.1)) z)) ∧
    (∀ (tmp : Int × Nat) (before : List (Int × Nat)),
        insertion_sort.sift (fun a b : Int × Nat => decide (a.1 < b.1)) tmp before
        = before.takeWhile (fun p => decide (tmp.1 < p.1))
            ++ tmp :: before.dropWhile (fun p => decide (tmp.1 < p.1))) ∧
    (([(2, 0), (1, 1), (2, 2), (1, 3)] : List (Int × Nat)).Chain'
        (fun a b => decide (b.1 < a.1) = false) →
      insertion_sort (fun a b : Int × Nat => decide (a.1 < b.1))
        [(2, 0), (1, 1), (2, 2), (1, 3)] = [(2, 0), (1, 1), (2, 2), (1, 3)])) :=
  ⟨fst_lt_strictWeakOrder,
    insertion_sort_stable (fun a b : Int × Nat => decide (a.1 < b.1)) fst_lt_strictWeakOrder
      [(2, 0), (1, 1), (2, 2), (1, 3)]⟩

/-! ## The accumulator of `average` -/

theorem average_loop_eq_foldl (size : Nat) (l : List Int) (accumulator : Int) (res : ℚ) :
    average.loop size l accumulator res
      = ld_round ((l.foldl (average.step size) (accumulator, res)).2
        + ld_round (((l.foldl (average.step size) (accumulator, res)).1 : ℚ) / (size : ℚ))) := by
  induction l generalizing accumulator res with
  | nil => rfl
  | cons x rest ih =>
    rw [average.loop, List.foldl_cons, average.step]
    split
    · rw [ih]
    · rw [ih]

theorem average_step_inRange (size : Nat) (state : Int × ℚ) (x : Int)
    (hx : INTMAX_MIN ≤ x ∧ x ≤ INTMAX_MAX) :
    INTMAX_MIN ≤ (average.step size state x).1 ∧ (average.step size state x).1 ≤ INTMAX_MAX := by
  rw [average.step]
  split
  · rw [wrap64_of_inRange x hx]
    exact hx
  · rename_i hno
    simp only [add_overflow, decide_eq_true_eq, not_or, not_lt] at hno
    constructor
    · have := hno.1; show INTMAX_MIN ≤ state.1 + x; omega
    · have := hno.2; show state.1 + x ≤ INTMAX_MAX; omega

theorem scanl_states_inRange (size : Nat) (l : List Int) (h : InRange l) (s0 : Int × ℚ)
    (h0 : INTMAX_MIN ≤ s0.1 ∧ s0.1 ≤ INTMAX_MAX) :
    ∀ s ∈ List.scanl (average.step size) s0 l, INTMAX_MIN ≤ s.1 ∧ s.1 ≤ INTMAX_MAX := by
  induction l generalizing s0 with
  | nil =>
    intro s hs
    simp only [List.scanl_nil, List.mem_singleton] at hs
    rw [hs]; exact h0
  | cons x rest ih =>
    intro s hs
    rw [List.scanl_cons, List.singleton_append, List.mem_cons] at hs
    rcases hs with rfl | hs
    · exact h0
    · exact ih h.cons.2 _ (average_step_inRange size s0 x h.cons.1) s hs

/-- C15: in `average` over signed 64-bit integers the accumulator never leaves
`[-2^63, 2^63 - 1]`: it holds before the loop and after every iteration, because an
iteration either adds the next element when the exact sum fits or restarts from that
element, adding the rounded quotient of the accumulator to the result; the value returned
is the flush of the last state. -/
theorem accumulator_never_overflows (size : Nat) (l : List Int) (h : InRange l) :
    (∀ s ∈ average.states size l, INTMAX_MIN ≤ s.1 ∧ s.1 ≤ INTMAX_MAX) ∧
    (∀ (state : Int × ℚ) (x : Int), INTMAX_MIN ≤ x ∧ x ≤ INTMAX_MAX →
      ((add_overflow x state.1).1 = false →
        average.step size state x = (state.1 + x, state.2) ∧
        INTMAX_MIN ≤ state.1 + x ∧ state.1 + x ≤ INTMAX_MAX) ∧
      ((add_overflow x state.1).1 = true →
        average.step size state x
          = (x, ld_round (state.2 + ld_round ((state.1 : ℚ) / (size : ℚ)))))) ∧
    (size ≠ 0 → average l size
      = ld_round ((l.foldl (average.step size) (0, 0)).2
        + ld_round (((l.foldl (average.step size) (0, 0)).1 : ℚ) / (size : ℚ)))) := by
  refine ⟨scanl_states_inRange size l h (0, 0) (by decide), ?_, ?_⟩
  · intro state x hx
    constructor
    · intro hno
      have hstep : average.step size state x = (state.1 + x, state.2) := by
        rw [average.step, if_neg (by simp [hno])]
      have := average_step_inRange size state x hx
      rw [hstep] at this
      exact ⟨hstep, this⟩
    · intro hov
      rw [average.step, if_pos hov, wrap64_of_inRange x hx]
  · intro hs
    rw [average, if_neg hs, average_loop_eq_foldl]

theorem accumulator_never_overflows_witness :
    InRange (List.replicate 5 9223372036854775807 ++ [-9223372036854775808, -1, 3]) ∧
    ((∀ s ∈ average.states 8
        (List.replicate 5 9223372036854775807 ++ [-9223372036854775808, -1, 3]),
        INTMAX_MIN ≤ s.1 ∧ s.1 ≤ INTMAX_MAX) ∧
    (∀ (state : Int × ℚ) (x : Int), INTMAX_MIN ≤ x ∧ x ≤ INTMAX_MAX →
      ((add_overflow x state.1).1 = false →
        average.step 8 state x = (state.1 + x, state.2) ∧
        INTMAX_MIN ≤ state.1 + x ∧ state.1 + x ≤ INTMAX_MAX) ∧
      ((add_overflow x state.1).1 = true →
        average.step 8 state x
          = (x, ld_round (state.2 + ld_round ((state.1 : ℚ) / ((8 : Nat) : ℚ)))))) ∧
    (8 ≠ 0 → average (List.replicate 5 9223372036854775807 ++ [-9223372036854775808, -1, 3]) 8
      = ld_round (((List.replicate 5 9223372036854775807 ++ [-9223372036854775808, -1, 3]).foldl
          (average.step 8) (0, 0)).2
        + ld_round ((((List.replicate 5 9223372036854775807
            ++ [-9223372036854775808, -1, 3]).foldl
          (average.step 8) (0, 0)).1 : ℚ) / ((8 : Nat) : ℚ))))) :=
  ⟨by decide, accumulator_never_overflows 8
    (List.replicate 5 9223372036854775807 ++ [-9223372036854775808, -1, 3]) (by decide)⟩

/-- C16 (evaluation of the code): on the one-element range of unsigned 64-bit integers
holding `2^63`, the addition to the empty accumulator is reported as overflowing, the
accumulator restarts from the element converted to `std::intmax_t`, which is `-2^63`,
and `average` returns `-2^63` where the mean is `2^63`. -/
theorem unsigned_average_wraps :
    InRangeU64 [9223372036854775808] ∧
    (add_overflow 9223372036854775808 0).1 = true ∧
    wrap64 9223372036854775808 = -9223372036854775808 ∧
    average [9223372036854775808] 1 = -9223372036854775808 ∧
    average [9223372036854775808] 1
      ≠ ((([9223372036854775808] : List Int).sum : Int) : ℚ) / ((1 : Nat) : ℚ) := by
  have havg : average [9223372036854775808] 1 = -9223372036854775808 := by decide!
  refine ⟨by decide, by decide, by decide, havg, ?_⟩
  rw [havg]
  norm_num

/-! ## The spread sample -/

theorem spread_sample_pivots :
    numeric_pivots spread_sample 32
      = some (XReal.ofRat (-4465245786826716003 / 4611686018427387904),
              XReal.ofRat (4465245786826716003 / 4611686018427387904)) := by decide!

/-- C12 (evaluation of the code): on the 32-element range of fifteen times -1, fifteen
times 1 and two zeros the pivots are `-√(15/16)` and `√(15/16)` as rounded by the
arithmetic, about -0.968 and 0.968, and the middle region `[middle1, middle2)` holds the
two zeros only: 2 elements, not the 24 that 75% of 32 asks for. -/
theorem middle_region_below_three_quarters (P : Partitioner) :
    InRange spread_sample ∧ spread_sample.length = 32 ∧
    numeric_pivots spread_sample 32
      = some (XReal.ofRat (-4465245786826716003 / 4611686018427387904),
              XReal.ofRat (4465245786826716003 / 4611686018427387904)) ∧
    ∃ g, partition_ranges P less spread_sample 32 = some g ∧
      g.middle2 - g.middle1 = 2 ∧
      (second_split P less (XReal.ofRat (-4465245786826716003 / 4611686018427387904),
          XReal.ofRat (4465245786826716003 / 4611686018427387904)) spread_sample).1 = [0, 0] ∧
      ((g.middle2 - g.middle1 : Nat) : ℚ) < 0.75 * 32 := by
  have hmid_eq : (second_split P less
      (XReal.ofRat (-4465245786826716003 / 4611686018427387904),
        XReal.ofRat (4465245786826716003 / 4611686018427387904)) spread_sample).1 = [0, 0] :=
    middle_eq_replicate P spread_sample _ _ 2 0 (by decide!)
  have hpr : partition_ranges P less spread_sample 32
      = some (partition_steps P less
          (XReal.ofRat (-4465245786826716003 / 4611686018427387904),
            XReal.ofRat (4465245786826716003 / 4611686018427387904)) spread_sample) := by
    rw [partition_ranges, spread_sample_pivots]
  have hlen : (partition_steps P less
      (XReal.ofRat (-4465245786826716003 / 4611686018427387904),
        XReal.ofRat (4465245786826716003 / 4611686018427387904)) spread_sample).middle2
      - (partition_steps P less
      (XReal.ofRat (-4465245786826716003 / 4611686018427387904),
        XReal.ofRat (4465245786826716003 / 4611686018427387904)) spread_sample).middle1 = 2 := by
    have := (inner_perm P less
      (XReal.ofRat (-4465245786826716003 / 4611686018427387904),
        XReal.ofRat (4465245786826716003 / 4611686018427387904)) spread_sample).length_eq
    rw [hmid_eq] at this
    simp only [List.length_append, List.length_cons, List.length_nil] at this
    simp only [Regions.middle2, Regions.middle1]
    omega
  refine ⟨by decide, by decide, spread_sample_pivots, _, hpr, hlen, hmid_eq, ?_⟩
  rw [hlen]
  norm_num

/-! ## Layout of the five regions under the natural order -/

/-- C13 (as stated, refuted): on thirty-two copies of 5 every element ends in the region
`[middle3, middle4)` of the elements equal to the refined pivot; the four recursed
sub-ranges are empty, so no element lies in any of them and the four sizes sum to 0,
not to 32. -/
theorem four_sizes_miss_equal_region :
    InRange (List.replicate 32 5) ∧ 32 ≤ (List.replicate 32 (5 : Int)).length ∧
    ∃ g, partition_ranges filterPartition less (List.replicate 32 5)
        (List.replicate 32 (5 : Int)).length = some g ∧
      g.r0.length + g.r1.length + g.r2.length + g.r3.length
        ≠ (List.replicate 32 (5 : Int)).length ∧
      ∀ x ∈ List.replicate 32 (5 : Int), x ∉ g.r0 ∧ x ∉ g.r1 ∧ x ∉ g.r2 ∧ x ∉ g.r3 := by
  refine ⟨by decide, by decide, ⟨[], [], List.replicate 32 5, [], []⟩, by decide!, by decide, ?_⟩
  intro x _
  simp

/-- C13 (amended): under the natural order, for a range of `n ≥ 32` integers, the five
regions `[first,middle1)`, `[middle1,middle3)`, `[middle3,middle4)`, `[middle4,middle2)`,
`[middle2,last)` together hold every element of the range exactly once and share no
value; `[middle3,middle4)` holds elements equal to the refined pivot and is not recursed
into, so the four sizes in `sizes[]` sum to `n` minus the size of that region. -/
theorem five_regions_partition (P : Partitioner) (l : List Int) (hn : 32 ≤ l.length) :
    ∃ pivots g, numeric_pivots l l.length = some pivots ∧
      partition_ranges P less l l.length = some g ∧
      g.range.Perm l ∧
      List.Pairwise List.Disjoint [g.r0, g.r1, g.eq, g.r2, g.r3] ∧
      g.r0.length + g.r1.length + g.r2.length + g.r3.length + g.eq.length = l.length ∧
      ∀ x ∈ g.eq, (x : ℚ) = new_pivot P less pivots l := by
  have hn0 : l.length ≠ 0 := by omega
  have hperm := partition_steps_perm P less
    (⟨ld_round (average l l.length - std_deviation l l.length)⟩,
     ⟨ld_round (average l l.length + std_deviation l l.length)⟩) l
  refine ⟨_, _, numeric_pivots_eq l l.length hn0, partition_ranges_eq P less l l.length hn0,
    hperm, regions_disjoint P less _ l, ?_, ?_⟩
  · have := hperm.length_eq
    simp only [List.length_append] at this
    omega
  · intro x hx
    have := mem_eq P less _ l hx
    rw [less_int_rat, less_rat_int, decide_eq_false_iff_not, decide_eq_false_iff_not] at this
    exact le_antisymm (not_lt.1 this.2.2) (not_lt.1 this.2.1)

theorem five_regions_partition_witness :
    32 ≤ sample34.length ∧
    ∃ pivots g, numeric_pivots sample34 sample34.length = some pivots ∧
      partition_ranges filterPartition less sample34 sample34.length = some g ∧
      g.range.Perm sample34 ∧
      List.Pairwise List.Disjoint [g.r0, g.r1, g.eq, g.r2, g.r3] ∧
      g.r0.length + g.r1.length + g.r2.length + g.r3.length + g.eq.length = sample34.length ∧
      ∀ x ∈ g.eq, (x : ℚ) = new_pivot filterPartition less pivots sample34 :=
  ⟨by decide, five_regions_partition filterPartition sample34 (by decide)⟩

/-! ## The five regions by value -/

theorem Call.size_eq {P : Partitioner} {compare : XReal → XReal → Bool} {l0 l : List Int}
    {size : Nat} (hc : Call P compare l0 l size) : size = l.length := by
  cases hc <;> rfl

/-- C18: `numeric_quicksort` starts `numeric_quicksort_impl` on the whole range with its
length, and in every call of `numeric_quicksort_impl` that this leads to, `size` is the
number of elements of the range. A call with `size < 32` is answered by `insertion_sort`
and divides by nothing. A call with `size ≥ 32` computes pivots: `numeric_pivots` gets a
size of at least 32 equal to the length of the range, the square root of `size` it
divides by is positive, the result of the call is the one of the four recursive calls on
the regions with their lengths as sizes, and each of these is again such a call; the
refined pivot is `average` of the middle region with its length, the only helper call
that can get size 0, exactly when that region is empty, and it then returns 0. -/
theorem call_sizes (P : Partitioner) (compare : XReal → XReal → Bool) (l0 l : List Int)
    (size : Nat) (hc : Call P compare l0 l size) :
    (∀ fuel, numeric_quicksort P compare fuel l0
      = numeric_quicksort_impl P compare fuel l0 l0.length) ∧
    size = l.length ∧
    (size < 32 → ∀ fuel, numeric_quicksort_impl P compare fuel l size
      = some (insertion_sort (fun a b : Int => compare (XReal.ofInt a) (XReal.ofInt b)) l)) ∧
    (¬ size < 32 →
      32 ≤ size ∧ size ≠ 0 ∧ 0 < ld_sqrt (size : ℚ) ∧
      ∃ pivots g, numeric_pivots l size = some pivots ∧
        partition_ranges P compare l size = some g ∧
        g = partition_steps P compare pivots l ∧
        (∀ fuel, numeric_quicksort_impl P compare (fuel + 1) l size
          = (numeric_quicksort_impl P compare fuel g.r0 g.r0.length).bind fun s0 =>
            (numeric_quicksort_impl P compare fuel g.r3 g.r3.length).bind fun s3 =>
            (numeric_quicksort_impl P compare fuel g.r1 g.r1.length).bind fun s1 =>
            (numeric_quicksort_impl P compare fuel g.r2 g.r2.length).bind fun s2 =>
              some (s0 ++ s1 ++ g.eq ++ s2 ++ s3)) ∧
        Call P compare l0 g.r0 g.r0.length ∧ Call P compare l0 g.r3 g.r3.length ∧
        Call P compare l0 g.r1 g.r1.length ∧ Call P compare l0 g.r2 g.r2.length ∧
        new_pivot P compare pivots l
          = average (second_split P compare pivots l).1 (second_split P compare pivots l).1.length ∧
        ((second_split P compare pivots l).1.length = 0 ↔
          (second_split P compare pivots l).1 = []) ∧
        ((second_split P compare pivots l).1 = [] → new_pivot P compare pivots l = 0)) ∧
    ∀ r : List Int, average r 0 = 0 := by
  refine ⟨fun _ => rfl, hc.size_eq, fun hsmall fuel => impl_small P compare fuel l size hsmall,
    ?_, average_size_zero⟩
  intro hbig
  have h0 : size ≠ 0 := by omega
  have hpos : (0 : ℚ) < (size : ℚ) := by exact_mod_cast Nat.pos_of_ne_zero h0
  have hg := partition_ranges_eq P compare l size h0
  refine ⟨by omega, h0, ld_sqrt_pos hpos, _, _, numeric_pivots_eq l size h0, hg, rfl, ?_,
    Call.rec0 hc hbig hg, Call.rec3 hc hbig hg, Call.rec1 hc hbig hg, Call.rec2 hc hbig hg,
    rfl, List.length_eq_zero, ?_⟩
  · intro fuel
    rw [impl_succ P compare fuel l size hbig, hg, Option.some_bind]
  · intro hnil
    rw [new_pivot, hnil]
    rfl

theorem call_sizes_witness :
    Call filterPartition less unsorted_max_sample max_sample_32 32 ∧
    ((∀ fuel, numeric_quicksort filterPartition less fuel unsorted_max_sample
      = numeric_quicksort_impl filterPartition less fuel unsorted_max_sample
          unsorted_max_sample.length) ∧
    32 = max_sample_32.length ∧
    (32 < 32 → ∀ fuel, numeric_quicksort_impl filterPartition less fuel max_sample_32 32
      = some (insertion_sort (fun a b : Int => less (XReal.ofInt a) (XReal.ofInt b))
          max_sample_32)) ∧
    (¬ 32 < 32 →
      32 ≤ 32 ∧ 32 ≠ 0 ∧ 0 < ld_sqrt ((32 : Nat) : ℚ) ∧
      ∃ pivots g, numeric_pivots max_sample_32 32 = some pivots ∧
        partition_ranges filterPartition less max_sample_32 32 = some g ∧
        g = partition_steps filterPartition less pivots max_sample_32 ∧
        (∀ fuel, numeric_quicksort_impl filterPartition less (fuel + 1) max_sample_32 32
          = (numeric_quicksort_impl filterPartition less fuel g.r0 g.r0.length).bind fun s0 =>
            (numeric_quicksort_impl filterPartition less fuel g.r3 g.r3.length).bind fun s3 =>
            (numeric_quicksort_impl filterPartition less fuel g.r1 g.r1.length).bind fun s1 =>
            (numeric_quicksort_impl filterPartition less fuel g.r2 g.r2.length).bind fun s2 =>
              some (s0 ++ s1 ++ g.eq ++ s2 ++ s3)) ∧
        Call filterPartition less unsorted_max_sample g.r0 g.r0.length ∧
        Call filterPartition less unsorted_max_sample g.r3 g.r3.length ∧
        Call filterPartition less unsorted_max_sample g.r1 g.r1.length ∧
        Call filterPartition less unsorted_max_sample g.r2 g.r2.length ∧
        new_pivot filterPartition less pivots max_sample_32
          = average (second_split filterPartition less pivots max_sample_32).1
              (second_split filterPartition less pivots max_sample_32).1.length ∧
        ((second_split filterPartition less pivots max_sample_32).1.length = 0 ↔
          (second_split filterPartition less pivots max_sample_32).1 = []) ∧
        ((second_split filterPartition less pivots max_sample_32).1 = [] →
          new_pivot filterPartition less pivots max_sample_32 = 0)) ∧
    ∀ r : List Int, average r 0 = 0) :=
  have hc : Call filterPartition less unsorted_max_sample max_sample_32 32 := by
    have h := Call.rec1
      (Call.root : Call filterPartition less unsorted_max_sample unsorted_max_sample 33)
      (by decide) (unsorted_max_sample_regions filterPartition).1
    rw [(unsorted_max_sample_regions filterPartition).2] at h
    exact h
  ⟨hc, call_sizes filterPartition less unsorted_max_sample max_sample_32 32 hc⟩

end NumericQuicksort
